import Mathlib

/-!
# Verification of the steamstacks CM client core

Shallow embedding of the `steamclient` package (channel cipher, wire codec,
multi-message expansion, dispatch/job correlation, connection lifecycle,
TCP encryption handshake) over `List Nat` byte strings, together with
theorems settling the specification's claims.

Bytes are modelled as natural numbers; wherever the Go code computes in
32-bit arithmetic the embedding takes the value modulo `2^32` explicitly.
Library collaborators that the Go code calls (AES via `crypto/aes`,
HMAC-SHA1 via `crypto/hmac` + `crypto/sha1`, protobuf marshalling, gzip)
appear either as explicit parameters constrained by the properties the
library guarantees, or (for AES-256 and HMAC-SHA1, needed by concrete
counterexamples) as full executable definitions.
-/

namespace SteamStacks

/-! ## Byte-string primitives (little-endian codecs, xor) -/

/-- `binary.LittleEndian.Uint32`: little-endian read of the first four bytes. -/
def leUint32 (l : List Nat) : Nat :=
  l.getD 0 0 + 256 * l.getD 1 0 + 65536 * l.getD 2 0 + 16777216 * l.getD 3 0

/-- `binary.LittleEndian.PutUint32`: little-endian four-byte encoding of `n`'s low 32 bits. -/
def putUint32LE (n : Nat) : List Nat :=
  [n % 256, n / 256 % 256, n / 65536 % 256, n / 16777216 % 256]

/-- `binary.LittleEndian.Uint64`: little-endian read of the first eight bytes. -/
def leUint64 (l : List Nat) : Nat :=
  l.getD 0 0 + 256 * l.getD 1 0 + 256^2 * l.getD 2 0 + 256^3 * l.getD 3 0 +
  256^4 * l.getD 4 0 + 256^5 * l.getD 5 0 + 256^6 * l.getD 6 0 + 256^7 * l.getD 7 0

/-- `binary.LittleEndian.PutUint64`: little-endian eight-byte encoding of `n`'s low 64 bits. -/
def putUint64LE (n : Nat) : List Nat :=
  [n % 256, n / 256 % 256, n / 256^2 % 256, n / 256^3 % 256,
   n / 256^4 % 256, n / 256^5 % 256, n / 256^6 % 256, n / 256^7 % 256]

/-- Little-endian two-byte encoding (used for the legacy header version field). -/
def putUint16LE (n : Nat) : List Nat :=
  [n % 256, n / 256 % 256]

/-- Go's `int32` reinterpretation of a `uint32` value. -/
def int32OfUint32 (u : Nat) : Int :=
  if u < 2^31 then (u : Int) else (u : Int) - 2^32

/-- Little-endian four-byte two's-complement encoding of an `int32`
(what `binary.Write` does for an `int32` value). -/
def putInt32LE (v : Int) : List Nat :=
  putUint32LE (v % (2^32)).toNat

/-- Pointwise xor of two byte strings (`cipher.NewCBC*` xors block against previous block). -/
def xorBytes (a b : List Nat) : List Nat :=
  List.zipWith (fun x y => x ^^^ y) a b

theorem leUint32_putUint32LE (n : Nat) : leUint32 (putUint32LE n) = n % 2^32 := by
  simp [leUint32, putUint32LE]
  omega

theorem leUint64_putUint64LE (n : Nat) : leUint64 (putUint64LE n) = n % 2^64 := by
  simp [leUint64, putUint64LE]
  omega

theorem putUint32LE_length (n : Nat) : (putUint32LE n).length = 4 := rfl

theorem putUint64LE_length (n : Nat) : (putUint64LE n).length = 8 := rfl

theorem xorBytes_length (a b : List Nat) :
    (xorBytes a b).length = min a.length b.length := by
  simp [xorBytes]

theorem xorBytes_cancel_left (a b : List Nat) (h : a.length = b.length) :
    xorBytes a (xorBytes a b) = b := by
  induction a generalizing b with
  | nil => cases b with
    | nil => rfl
    | cons y ys => simp at h
  | cons x xs ih =>
    cases b with
    | nil => simp at h
    | cons y ys =>
      simp only [xorBytes, List.zipWith_cons_cons] at *
      simp only [List.cons.injEq]
      exact ⟨by rw [← Nat.xor_assoc, Nat.xor_self, Nat.zero_xor],
        ih ys (by simp only [List.length_cons] at h; omega)⟩

theorem xorBytes_left_inj (a b c : List Nat) (hab : a.length = b.length)
    (hac : a.length = c.length) (h : xorBytes a b = xorBytes a c) : b = c := by
  have hb := xorBytes_cancel_left a b hab
  have hc := xorBytes_cancel_left a c hac
  rw [← hb, ← hc, h]

theorem xorBytes_right_inj (a b c : List Nat) (hac : a.length = c.length)
    (hbc : b.length = c.length) (h : xorBytes a c = xorBytes b c) : a = b := by
  induction c generalizing a b with
  | nil =>
    cases a with
    | nil => cases b with
      | nil => rfl
      | cons y ys => simp at hbc
    | cons x xs => simp at hac
  | cons z zs ih =>
    cases a with
    | nil => simp at hac
    | cons x xs =>
      cases b with
      | nil => simp at hbc
      | cons y ys =>
        simp only [xorBytes, List.zipWith_cons_cons, List.cons.injEq] at h ⊢
        obtain ⟨h1, h2⟩ := h
        constructor
        · have := congrArg (fun t => t ^^^ z) h1
          simpa [Nat.xor_assoc] using this
        · exact ih xs ys (by simpa using hac) (by simpa using hbc) h2

/-! ## Channel cipher (`steamclient/crypto.go`)

`channelCipher` holds an AES-256 block cipher (`cipher.Block`, a pair of
inverse permutations on 16-byte blocks) and, in HMAC mode, the function
`m ↦ HMAC-SHA1(sessionKey[0:16], m)`.  The embedding carries both as
function fields; `GoodCipher` states the properties `crypto/aes` and
`crypto/hmac` guarantee for them. -/

/-- `ivLen = 16` (AES block size). -/
def ivLen : Nat := 16

/-- `ivRandomLen = 3` (random bytes appended to the HMAC hash in the IV). -/
def ivRandomLen : Nat := 3

/-- `aes.BlockSize`. -/
def blockSize : Nat := 16

theorem ivLen_eq : ivLen = 16 := rfl

theorem ivRandomLen_eq : ivRandomLen = 3 := rfl

theorem blockSize_eq : blockSize = 16 := rfl

/-- Fuel-indexed 16-byte block splitter.  The fuel only bounds the
recursion depth (any fuel at least `l.length` gives the same value); the
structural recursion keeps the function kernel-computable. -/
def toBlocksFuel : Nat → List Nat → List (List Nat)
  | 0, _ => []
  | fuel+1, l => if l = [] then [] else l.take 16 :: toBlocksFuel fuel (l.drop 16)

/-- Split a byte string into 16-byte blocks (the block traversal of
`CryptBlocks`).  The last chunk is short when the input is not block-aligned;
callers only use this on aligned input. -/
def toBlocks (l : List Nat) : List (List Nat) :=
  toBlocksFuel l.length l

theorem toBlocksFuel_congr : ∀ (f1 f2 : Nat) (l : List Nat),
    l.length ≤ f1 → l.length ≤ f2 → toBlocksFuel f1 l = toBlocksFuel f2 l := by
  intro f1
  induction f1 with
  | zero =>
    intro f2 l h1 h2
    have hl : l = [] := List.length_eq_zero.mp (by omega)
    subst hl
    cases f2 <;> rfl
  | succ f ih =>
    intro f2 l h1 h2
    cases f2 with
    | zero =>
      have hl : l = [] := List.length_eq_zero.mp (by omega)
      subst hl
      rfl
    | succ f2 =>
      by_cases hl : l = []
      · subst hl; rfl
      · have h0 : l.length ≠ 0 := fun hc => hl (List.length_eq_zero.mp hc)
        simp only [toBlocksFuel, if_neg hl]
        have hdl : (l.drop 16).length = l.length - 16 := List.length_drop 16 l
        rw [ih f2 (l.drop 16) (by omega) (by omega)]

/-- CBC encryption over a list of blocks: each block is xored with the
previous ciphertext block (initially the IV) and passed through the block
cipher (`cipher.NewCBCEncrypter(...).CryptBlocks`). -/
def cbcEncryptBlocks (encB : List Nat → List Nat) (prev : List Nat) :
    List (List Nat) → List (List Nat)
  | [] => []
  | b :: bs =>
    let c := encB (xorBytes prev b)
    c :: cbcEncryptBlocks encB c bs

/-- CBC decryption over a list of blocks (`cipher.NewCBCDecrypter(...).CryptBlocks`). -/
def cbcDecryptBlocks (decB : List Nat → List Nat) (prev : List Nat) :
    List (List Nat) → List (List Nat)
  | [] => []
  | b :: bs => xorBytes prev (decB b) :: cbcDecryptBlocks decB b bs

/-- Flat-byte-string CBC encryption with initialization vector `iv`. -/
def cbcEncrypt (encB : List Nat → List Nat) (iv data : List Nat) : List Nat :=
  (cbcEncryptBlocks encB iv (toBlocks data)).flatten

/-- Flat-byte-string CBC decryption with initialization vector `iv`. -/
def cbcDecrypt (decB : List Nat → List Nat) (iv data : List Nat) : List Nat :=
  (cbcDecryptBlocks decB iv (toBlocks data)).flatten

/-- `pkcs7Pad`: append `blockSize - len(data) % blockSize` copies of that very
value (always between 1 and `blockSize` bytes). -/
def pkcs7Pad (data : List Nat) (bs : Nat) : List Nat :=
  let padding := bs - data.length % bs
  data ++ List.replicate padding padding

/-- `pkcs7Unpad`: validate and strip PKCS7 padding.  `none` on any of the
three validation failures (`invalid padded data length`, `invalid padding
value`, `invalid padding byte`), mirroring the Go error returns. -/
def pkcs7Unpad (data : List Nat) (bs : Nat) : Option (List Nat) :=
  -- padding = int(data[len(data)-1]) = data.getD (data.length - 1) 0
  if data.length = 0 ∨ data.length % bs ≠ 0 then none
  else if data.getD (data.length - 1) 0 = 0 ∨ bs < data.getD (data.length - 1) 0 then
    none
  else if (data.drop (data.length - data.getD (data.length - 1) 0)).all
      (fun b => b = data.getD (data.length - 1) 0) then
    some (data.take (data.length - data.getD (data.length - 1) 0))
  else none

/-- The `channelCipher` struct: the AES block permutation pair from
`aes.NewCipher(sessionKey)` and the keyed HMAC-SHA1 from `hmacSecret`. -/
structure ChannelCipher where
  encBlock : List Nat → List Nat
  decBlock : List Nat → List Nat
  mac : List Nat → List Nat
  useHMAC : Bool

/-- Properties `crypto/aes` guarantees for the block cipher held in a
`channelCipher` (a length-preserving permutation pair on 16-byte blocks)
and `crypto/hmac`+`crypto/sha1` for the mac (20-byte digests). -/
structure GoodCipher (c : ChannelCipher) : Prop where
  dec_enc : ∀ b : List Nat, b.length = 16 → c.decBlock (c.encBlock b) = b
  enc_dec : ∀ b : List Nat, b.length = 16 → c.encBlock (c.decBlock b) = b
  enc_len : ∀ b : List Nat, b.length = 16 → (c.encBlock b).length = 16
  dec_len : ∀ b : List Nat, b.length = 16 → (c.decBlock b).length = 16
  mac_len : ∀ m : List Nat, (c.mac m).length = 20

/-- The IV built by `encrypt`: in HMAC mode the first 13 bytes are the
HMAC-SHA1 of (3 random bytes ‖ plaintext) and the random bytes go at the
end; otherwise the IV is the 16 random bytes.  `rnd` stands for the bytes
obtained from `rand.Read` (3 bytes in HMAC mode, 16 otherwise). -/
def buildIV (c : ChannelCipher) (rnd plaintext : List Nat) : List Nat :=
  if c.useHMAC then (c.mac (rnd ++ plaintext)).take (ivLen - ivRandomLen) ++ rnd
  else rnd

/-- `channelCipher.encrypt`: AES-ECB of the IV, then AES-CBC of the
PKCS7-padded plaintext under the unencrypted IV. -/
def channelEncrypt (c : ChannelCipher) (rnd plaintext : List Nat) : List Nat :=
  let iv := buildIV c rnd plaintext
  c.encBlock iv ++ cbcEncrypt c.encBlock iv (pkcs7Pad plaintext blockSize)

/-- Error kinds of `channelCipher.decrypt`.  `tooShort`, `notAligned` and
`padError` are malformed-data failures (FormatError); `hmacFail` is the
HMAC-verification failure (IntegrityError). -/
inductive DecryptError where
  | tooShort
  | notAligned
  | padError
  | hmacFail
deriving DecidableEq, Repr

/-- `channelCipher.decrypt`: recover the IV with one ECB block decryption,
CBC-decrypt the rest, strip PKCS7 padding, and in HMAC mode compare the
first 13 bytes of the recomputed HMAC against the IV prefix. -/
def channelDecrypt (c : ChannelCipher) (data : List Nat) :
    Except DecryptError (List Nat) :=
  if data.length < ivLen + blockSize then .error .tooShort
  else
    let iv := c.decBlock (data.take ivLen)
    let cbcData := data.drop ivLen
    if cbcData.length % blockSize ≠ 0 then .error .notAligned
    else
      let padded := cbcDecrypt c.decBlock iv cbcData
      match pkcs7Unpad padded blockSize with
      | none => .error .padError
      | some plaintext =>
        if c.useHMAC then
          if (c.mac (iv.drop (ivLen - ivRandomLen) ++ plaintext)).take (ivLen - ivRandomLen)
              = iv.take (ivLen - ivRandomLen) then .ok plaintext
          else .error .hmacFail
        else .ok plaintext

/-! ### Block-chunking and CBC lemmas -/

theorem toBlocks_nil : toBlocks [] = [] := rfl

theorem toBlocks_cons_of_ne (l : List Nat) (h : l ≠ []) :
    toBlocks l = l.take 16 :: toBlocks (l.drop 16) := by
  have h0 : l.length ≠ 0 := fun hc => h (List.length_eq_zero.mp hc)
  obtain ⟨k, hk⟩ : ∃ k, l.length = k + 1 := ⟨l.length - 1, by omega⟩
  unfold toBlocks
  rw [hk]
  simp only [toBlocksFuel, if_neg h]
  have hdl : (l.drop 16).length = l.length - 16 := List.length_drop 16 l
  rw [toBlocksFuel_congr k (l.drop 16).length (l.drop 16) (by omega) (by omega)]

theorem toBlocks_flatten_aux : ∀ (n : Nat) (l : List Nat), l.length = n →
    l.length % 16 = 0 → (toBlocks l).flatten = l := by
  intro n
  induction n using Nat.strong_induction_on with
  | _ n ih =>
    intro l hlen hmod
    by_cases hl : l = []
    · subst hl; simp [toBlocks_nil]
    · rw [toBlocks_cons_of_ne l hl, List.flatten_cons]
      have h0 : l.length ≠ 0 := fun hc => hl (List.length_eq_zero.mp hc)
      have hdl : (l.drop 16).length = l.length - 16 := List.length_drop 16 l
      rw [ih (l.drop 16).length (by omega) (l.drop 16) rfl (by omega),
        List.take_append_drop]

theorem toBlocks_flatten (l : List Nat) (h : l.length % 16 = 0) :
    (toBlocks l).flatten = l :=
  toBlocks_flatten_aux l.length l rfl h

theorem toBlocks_block_length_aux : ∀ (n : Nat) (l : List Nat), l.length = n →
    l.length % 16 = 0 → ∀ b ∈ toBlocks l, b.length = 16 := by
  intro n
  induction n using Nat.strong_induction_on with
  | _ n ih =>
    intro l hlen hmod
    by_cases hl : l = []
    · subst hl; simp [toBlocks_nil]
    · rw [toBlocks_cons_of_ne l hl]
      intro b hb
      have h0 : l.length ≠ 0 := fun hc => hl (List.length_eq_zero.mp hc)
      have h16 : 16 ≤ l.length := by omega
      have hdl : (l.drop 16).length = l.length - 16 := List.length_drop 16 l
      rcases List.mem_cons.mp hb with hb | hb
      · subst hb
        simp [List.length_take]
        omega
      · exact ih (l.drop 16).length (by omega) (l.drop 16) rfl (by omega) b hb

theorem toBlocks_block_length (l : List Nat) (h : l.length % 16 = 0) :
    ∀ b ∈ toBlocks l, b.length = 16 :=
  toBlocks_block_length_aux l.length l rfl h

theorem toBlocks_flatten_inv (bs : List (List Nat)) (h : ∀ b ∈ bs, b.length = 16) :
    toBlocks bs.flatten = bs := by
  induction bs with
  | nil => simp [toBlocks_nil]
  | cons b t ih =>
    have hb : b.length = 16 := h b (by simp)
    have hne : b ++ t.flatten ≠ [] := by
      intro hc
      have := congrArg List.length hc
      simp [hb] at this
    rw [List.flatten_cons, toBlocks_cons_of_ne _ hne]
    have htake : (b ++ t.flatten).take 16 = b := by
      rw [← hb, List.take_left]
    have hdrop : (b ++ t.flatten).drop 16 = t.flatten := by
      rw [← hb, List.drop_left]
    rw [htake, hdrop, ih (fun x hx => h x (by simp [hx]))]

theorem flatten_length_of_blocks (bs : List (List Nat)) (h : ∀ b ∈ bs, b.length = 16) :
    bs.flatten.length = 16 * bs.length := by
  induction bs with
  | nil => simp
  | cons b t ih =>
    simp only [List.flatten_cons, List.length_append, List.length_cons]
    rw [h b (by simp), ih (fun x hx => h x (by simp [hx]))]
    ring

theorem cbcEncryptBlocks_length (encB : List Nat → List Nat)
    (hlen : ∀ b : List Nat, b.length = 16 → (encB b).length = 16) :
    ∀ (bs : List (List Nat)) (prev : List Nat), prev.length = 16 →
      (∀ b ∈ bs, b.length = 16) →
      ∀ cb ∈ cbcEncryptBlocks encB prev bs, cb.length = 16 := by
  intro bs
  induction bs with
  | nil => intro prev _ _ cb hcb; simp [cbcEncryptBlocks] at hcb
  | cons b t ih =>
    intro prev hprev hmem cb hcb
    have hb : b.length = 16 := hmem b (by simp)
    have hxor : (xorBytes prev b).length = 16 := by
      rw [xorBytes_length, hprev, hb]; simp
    have henc : (encB (xorBytes prev b)).length = 16 := hlen _ hxor
    simp only [cbcEncryptBlocks, List.mem_cons] at hcb
    rcases hcb with hcb | hcb
    · subst hcb; exact henc
    · exact ih (encB (xorBytes prev b)) henc (fun x hx => hmem x (by simp [hx])) cb hcb

theorem cbcDecryptBlocks_cbcEncryptBlocks (c : ChannelCipher) (hc : GoodCipher c) :
    ∀ (bs : List (List Nat)) (prev : List Nat), prev.length = 16 →
      (∀ b ∈ bs, b.length = 16) →
      cbcDecryptBlocks c.decBlock prev (cbcEncryptBlocks c.encBlock prev bs) = bs := by
  intro bs
  induction bs with
  | nil => intro prev _ _; rfl
  | cons b t ih =>
    intro prev hprev hmem
    have hb : b.length = 16 := hmem b (by simp)
    have hxor : (xorBytes prev b).length = 16 := by
      rw [xorBytes_length, hprev, hb]; simp
    simp only [cbcEncryptBlocks, cbcDecryptBlocks, List.cons.injEq]
    constructor
    · rw [hc.dec_enc _ hxor]
      exact xorBytes_cancel_left prev b (by omega)
    · exact ih _ (hc.enc_len _ hxor) (fun x hx => hmem x (by simp [hx]))

theorem cbcDecrypt_cbcEncrypt (c : ChannelCipher) (hc : GoodCipher c)
    (iv data : List Nat) (hiv : iv.length = 16) (hdata : data.length % 16 = 0) :
    cbcDecrypt c.decBlock iv (cbcEncrypt c.encBlock iv data) = data := by
  unfold cbcEncrypt cbcDecrypt
  have hblocks := toBlocks_block_length data hdata
  have hctlens := cbcEncryptBlocks_length c.encBlock hc.enc_len (toBlocks data) iv hiv hblocks
  rw [toBlocks_flatten_inv _ hctlens,
    cbcDecryptBlocks_cbcEncryptBlocks c hc (toBlocks data) iv hiv hblocks,
    toBlocks_flatten data hdata]

theorem cbcEncrypt_length (encB : List Nat → List Nat)
    (hlen : ∀ b : List Nat, b.length = 16 → (encB b).length = 16)
    (iv data : List Nat) (hiv : iv.length = 16) (hdata : data.length % 16 = 0) :
    (cbcEncrypt encB iv data).length = data.length := by
  unfold cbcEncrypt
  have hblocks := toBlocks_block_length data hdata
  have hout : ∀ cb ∈ cbcEncryptBlocks encB iv (toBlocks data), cb.length = 16 := by
    intro cb hcb
    exact cbcEncryptBlocks_length encB hlen (toBlocks data) iv hiv hblocks cb hcb
  rw [flatten_length_of_blocks _ hout]
  have hcount : ∀ (bs : List (List Nat)) (prev : List Nat),
      (cbcEncryptBlocks encB prev bs).length = bs.length := by
    intro bs
    induction bs with
    | nil => intro prev; rfl
    | cons b t ih => intro prev; simp [cbcEncryptBlocks, ih]
  rw [hcount]
  have := flatten_length_of_blocks (toBlocks data) hblocks
  rw [toBlocks_flatten data hdata] at this
  omega

/-! ### PKCS7 lemmas -/

theorem pkcs7Pad_length (p : List Nat) :
    (pkcs7Pad p 16).length = p.length + (16 - p.length % 16) := by
  simp [pkcs7Pad]

theorem pkcs7Pad_length_mod (p : List Nat) : (pkcs7Pad p 16).length % 16 = 0 := by
  rw [pkcs7Pad_length]
  omega

theorem pkcs7Unpad_pkcs7Pad (p : List Nat) : pkcs7Unpad (pkcs7Pad p 16) 16 = some p := by
  have hk1 : 1 ≤ 16 - p.length % 16 := by omega
  have hk16 : 16 - p.length % 16 ≤ 16 := by omega
  set k := 16 - p.length % 16 with hk
  have hlen : (pkcs7Pad p 16).length = p.length + k := pkcs7Pad_length p
  have hmod : (pkcs7Pad p 16).length % 16 = 0 := pkcs7Pad_length_mod p
  unfold pkcs7Unpad
  rw [if_neg (by omega)]
  have hpadval : (pkcs7Pad p 16).getD ((pkcs7Pad p 16).length - 1) 0 = k := by
    show (p ++ List.replicate k k).getD ((pkcs7Pad p 16).length - 1) 0 = k
    rw [List.getD_eq_getElem?_getD, List.getElem?_append_right (by omega)]
    rw [hlen]
    have : p.length + k - 1 - p.length < k := by omega
    simp [List.getElem?_replicate, this]
  rw [hpadval, if_neg (by omega)]
  have hdrop : (pkcs7Pad p 16).drop ((pkcs7Pad p 16).length - k) = List.replicate k k := by
    show (p ++ List.replicate k k).drop ((pkcs7Pad p 16).length - k) = _
    have : (pkcs7Pad p 16).length - k = p.length := by omega
    rw [this, List.drop_left]
  have htake : (pkcs7Pad p 16).take ((pkcs7Pad p 16).length - k) = p := by
    show (p ++ List.replicate k k).take ((pkcs7Pad p 16).length - k) = _
    have : (pkcs7Pad p 16).length - k = p.length := by omega
    rw [this, List.take_left]
  rw [hdrop, htake, if_pos]
  simp [List.all_eq_true]

theorem buildIV_length (c : ChannelCipher) (hc : GoodCipher c) (rnd p : List Nat)
    (hrnd : rnd.length = if c.useHMAC then ivRandomLen else ivLen) :
    (buildIV c rnd p).length = 16 := by
  unfold buildIV
  by_cases h : c.useHMAC
  · rw [if_pos h]
    simp only [List.length_append, List.length_take, hc.mac_len]
    rw [if_pos h] at hrnd
    simp [ivLen, ivRandomLen] at hrnd ⊢
    omega
  · rw [if_neg h]
    rw [if_neg h] at hrnd
    simpa [ivLen] using hrnd

theorem channelEncrypt_length (c : ChannelCipher) (hc : GoodCipher c)
    (rnd p : List Nat) (hrnd : rnd.length = if c.useHMAC then ivRandomLen else ivLen) :
    (channelEncrypt c rnd p).length = 16 + (pkcs7Pad p blockSize).length := by
  unfold channelEncrypt
  have hiv := buildIV_length c hc rnd p hrnd
  simp only [List.length_append]
  rw [hc.enc_len _ hiv, cbcEncrypt_length c.encBlock hc.enc_len _ _ hiv]
  show (pkcs7Pad p 16).length % 16 = 0
  exact pkcs7Pad_length_mod p

theorem channelDecrypt_channelEncrypt (c : ChannelCipher) (hc : GoodCipher c)
    (rnd p : List Nat) (hrnd : rnd.length = if c.useHMAC then ivRandomLen else ivLen) :
    channelDecrypt c (channelEncrypt c rnd p) = .ok p := by
  have hiv := buildIV_length c hc rnd p hrnd
  have hpadmod : (pkcs7Pad p 16).length % 16 = 0 := pkcs7Pad_length_mod p
  have hpadlen : 16 ≤ (pkcs7Pad p 16).length := by
    have := pkcs7Pad_length p
    omega
  have hctlen : (cbcEncrypt c.encBlock (buildIV c rnd p) (pkcs7Pad p 16)).length
      = (pkcs7Pad p 16).length :=
    cbcEncrypt_length c.encBlock hc.enc_len _ _ hiv hpadmod
  have henclen : (c.encBlock (buildIV c rnd p)).length = 16 := hc.enc_len _ hiv
  unfold channelEncrypt channelDecrypt
  simp only [blockSize_eq, ivLen_eq, ivRandomLen_eq]
  rw [if_neg (by simp only [List.length_append, henclen, hctlen]; omega)]
  have htake := List.take_left (c.encBlock (buildIV c rnd p))
    (cbcEncrypt c.encBlock (buildIV c rnd p) (pkcs7Pad p 16))
  rw [henclen] at htake
  have hdrop := List.drop_left (c.encBlock (buildIV c rnd p))
    (cbcEncrypt c.encBlock (buildIV c rnd p) (pkcs7Pad p 16))
  rw [henclen] at hdrop
  simp only [htake, hdrop, hc.dec_enc (buildIV c rnd p) hiv]
  rw [if_neg (by rw [hctlen]; omega)]
  simp only [cbcDecrypt_cbcEncrypt c hc (buildIV c rnd p) (pkcs7Pad p 16) hiv hpadmod,
    pkcs7Unpad_pkcs7Pad]
  by_cases hH : c.useHMAC
  · rw [if_pos hH]
    have hmaclen : ((c.mac (rnd ++ p)).take 13).length = 13 := by
      simp only [List.length_take, hc.mac_len]
      norm_num
    have hivdef : buildIV c rnd p = (c.mac (rnd ++ p)).take 13 ++ rnd := by
      unfold buildIV
      rw [if_pos hH]
      norm_num [ivLen_eq, ivRandomLen_eq]
    have hd := List.drop_left ((c.mac (rnd ++ p)).take 13) rnd
    rw [hmaclen] at hd
    have ht := List.take_left ((c.mac (rnd ++ p)).take 13) rnd
    rw [hmaclen] at ht
    have hdrop13 : (buildIV c rnd p).drop 13 = rnd := by rw [hivdef]; exact hd
    have htake13 : (buildIV c rnd p).take 13 = (c.mac (rnd ++ p)).take 13 := by
      rw [hivdef]; exact ht
    rw [hdrop13, htake13, if_pos rfl]
  · rw [if_neg hH]

instance {ε α : Type} [DecidableEq ε] [DecidableEq α] : DecidableEq (Except ε α) := fun a b =>
  match a, b with
  | .ok x, .ok y =>
    if h : x = y then .isTrue (by rw [h]) else .isFalse (fun hc => h (Except.ok.inj hc))
  | .error x, .error y =>
    if h : x = y then .isTrue (by rw [h]) else .isFalse (fun hc => h (Except.error.inj hc))
  | .ok _, .error _ => .isFalse (fun hc => Except.noConfusion hc)
  | .error _, .ok _ => .isFalse (fun hc => Except.noConfusion hc)

/-- A concrete `ChannelCipher` in HMAC mode whose block cipher is the
identity permutation, used to instantiate cipher-generic theorems. -/
def hmacIdCipher : ChannelCipher :=
  ⟨fun b => b, fun b => b, fun _ => List.replicate 20 0, true⟩

/-- `hmacIdCipher` satisfies the block-cipher and mac interface contracts. -/
theorem hmacIdCipher_good : GoodCipher hmacIdCipher := by
  refine ⟨?_, ?_, ?_, ?_, ?_⟩ <;> intro b <;> simp [hmacIdCipher]

/-- **C1.** For every byte string `p` and every channel cipher built from a
32-byte session key (modelled by the `GoodCipher` interface contract of
`aes.NewCipher` on a valid key), in both HMAC and non-HMAC modes and for any
bytes delivered by `rand.Read`, `decrypt (encrypt p)` succeeds and returns
exactly `p`. -/
theorem C1_decrypt_encrypt_roundtrip (c : ChannelCipher) (hc : GoodCipher c)
    (rnd p : List Nat) (hrnd : rnd.length = if c.useHMAC then ivRandomLen else ivLen) :
    channelDecrypt c (channelEncrypt c rnd p) = .ok p :=
  channelDecrypt_channelEncrypt c hc rnd p hrnd

/-- Witness for C1: the round trip evaluated at a concrete cipher,
random bytes and plaintext. -/
theorem C1_decrypt_encrypt_roundtrip_witness :
    channelDecrypt hmacIdCipher (channelEncrypt hmacIdCipher [0, 0, 0] [1, 2, 3])
      = .ok [1, 2, 3] :=
  C1_decrypt_encrypt_roundtrip hmacIdCipher hmacIdCipher_good [0, 0, 0] [1, 2, 3]
    (by simp [hmacIdCipher, ivRandomLen_eq])

/-- **C10.** `encrypt p` is the 16-byte encrypted IV followed by the CBC
ciphertext of the PKCS7-padded plaintext; the padding adds between 1 and 16
bytes (a full extra block when `p.length` is a multiple of 16), so the output
length is exactly `16 + 16 * (p.length / 16 + 1)` and the empty plaintext
encrypts to 32 bytes. -/
theorem C10_encrypt_length (c : ChannelCipher) (hc : GoodCipher c) (rnd p : List Nat)
    (hrnd : rnd.length = if c.useHMAC then ivRandomLen else ivLen) :
    (channelEncrypt c rnd p).length = 16 + 16 * (p.length / 16 + 1) ∧
    channelEncrypt c rnd p = c.encBlock (buildIV c rnd p) ++
      cbcEncrypt c.encBlock (buildIV c rnd p) (pkcs7Pad p blockSize) ∧
    (c.encBlock (buildIV c rnd p)).length = 16 ∧
    1 ≤ (pkcs7Pad p blockSize).length - p.length ∧
    (pkcs7Pad p blockSize).length - p.length ≤ 16 ∧
    (p.length % 16 = 0 → (pkcs7Pad p blockSize).length = p.length + 16) ∧
    (p.length = 0 → (channelEncrypt c rnd p).length = 32) := by
  have hlen := channelEncrypt_length c hc rnd p hrnd
  have hpad := pkcs7Pad_length p
  have hpadbs : (pkcs7Pad p blockSize).length = p.length + (16 - p.length % 16) := by
    rw [blockSize_eq]; exact hpad
  refine ⟨?_, rfl, hc.enc_len _ (buildIV_length c hc rnd p hrnd), ?_, ?_, ?_, ?_⟩
  · rw [hlen, hpadbs]; omega
  · omega
  · omega
  · intro h0; omega
  · intro h0; rw [hlen, hpadbs]; omega

/-- Witness for C10: the length law evaluated at a concrete cipher and
plaintext. -/
theorem C10_encrypt_length_witness :
    (channelEncrypt hmacIdCipher [0, 0, 0] [5, 6, 7]).length = 16 + 16 * (3 / 16 + 1) :=
  (C10_encrypt_length hmacIdCipher hmacIdCipher_good [0, 0, 0] [5, 6, 7]
    (by simp [hmacIdCipher, ivRandomLen_eq])).1

/-! ## Wire codec (`steamclient/message.go`, `steamclient/emsg.go`)

`Packet` and the encode/decode pair.  The protobuf header
`CMsgProtoBufHeader` keeps the fields the client reads or writes
(identity, session, job correlation, result); the `Get*` accessors are
nil-safe like their Go counterparts.  Protobuf marshalling itself is a
library collaborator and enters as a `marshal`/`unmarshal` parameter pair;
the round-trip property `unmarshal (marshal h) = some h` that
`google.golang.org/protobuf` guarantees becomes a hypothesis. -/

/-- `ProtoMask = 0x80000000`. -/
def ProtoMask : Nat := 2^31

/-- `EMsgMulti = 1`. -/
def EMsgMulti : Nat := 1

/-- `EMsgClientLoggedOff = 757`. -/
def EMsgClientLoggedOff : Nat := 757

/-- `EMsgChannelEncryptRequest = 1303`. -/
def EMsgChannelEncryptRequest : Nat := 1303

/-- `EMsgChannelEncryptResponse = 1304`. -/
def EMsgChannelEncryptResponse : Nat := 1304

/-- `EMsgChannelEncryptResult = 1305`. -/
def EMsgChannelEncryptResult : Nat := 1305

/-- The fields of `protocol.CMsgProtoBufHeader` used by the client.
Every protobuf field is optional, hence the `Option`s; `targetJobName`
is kept as its byte string. -/
structure ProtoHeader where
  steamid : Option Nat
  clientSessionid : Option Int
  jobidSource : Option Nat
  jobidTarget : Option Nat
  targetJobName : Option (List Nat)
  eresult : Option Int
deriving DecidableEq, Repr

/-- The all-fields-absent header (`&protocol.CMsgProtoBufHeader{}`). -/
def emptyHeader : ProtoHeader :=
  ⟨none, none, none, none, none, none⟩

/-- Nil-safe `GetSteamid` on a possibly-nil header pointer. -/
def getSteamid : Option ProtoHeader → Nat
  | none => 0
  | some h => h.steamid.getD 0

/-- Nil-safe `GetClientSessionid`. -/
def getClientSessionid : Option ProtoHeader → Int
  | none => 0
  | some h => h.clientSessionid.getD 0

/-- Nil-safe `GetJobidTarget`. -/
def getJobidTarget : Option ProtoHeader → Nat
  | none => 0
  | some h => h.jobidTarget.getD 0

/-- Nil-safe `GetEresult`. -/
def getEresult : Option ProtoHeader → Int
  | none => 0
  | some h => h.eresult.getD 0

/-- `Packet`: a decoded CM message. -/
structure Packet where
  emsg : Nat
  isProto : Bool
  header : Option ProtoHeader
  body : List Nat
deriving DecidableEq, Repr

/-- Error kinds of the decode path (each a FormatError in the spec's
taxonomy). -/
inductive DecodeError where
  | packetTooShort
  | protoTooShortForHeaderLength
  | protoTruncated
  | badHeader
  | nonProtoTooShort
  | gzipOpen
  | shortSubSize
  | shortSubBody
  | subDecode
deriving DecidableEq, Repr

/-- Result of running a Go function that can return a value, return an
error, or panic at runtime.  `panicked` marks executions that Go aborts
with a runtime panic (out-of-range slice expressions). -/
inductive GoResult (α : Type) where
  | ok (a : α)
  | error (e : DecodeError)
  | panicked
deriving DecidableEq, Repr

/-- `decodeProtoPacket`.  The Go code compares and slices with the header
length in `uint32` arithmetic: both `8+hdrLen` occurrences wrap modulo
`2^32`, and the slice `data[8 : 8+hdrLen]` panics when the wrapped upper
bound is below 8 or above `len(data)`. -/
def decodeProtoPacket (unmarshal : List Nat → Option ProtoHeader)
    (emsg : Nat) (data : List Nat) : GoResult Packet :=
  -- hdrLen = leUint32 (data.drop 4); the wrapped upper slice bound is
  -- (8 + hdrLen) % 2^32
  if data.length < 8 then .error .protoTooShortForHeaderLength
  else if data.length % 2^32 < (8 + leUint32 (data.drop 4)) % 2^32 then
    .error .protoTruncated
  else if (8 + leUint32 (data.drop 4)) % 2^32 < 8 ∨
      data.length < (8 + leUint32 (data.drop 4)) % 2^32 then .panicked
  else
    match unmarshal ((data.drop 8).take ((8 + leUint32 (data.drop 4)) % 2^32 - 8)) with
    | none => .error .badHeader
    | some hdr =>
      .ok ⟨emsg, true, some hdr, data.drop ((8 + leUint32 (data.drop 4)) % 2^32)⟩

/-- `decodeNonProtoPacket`: fixed 36-byte legacy header, steam id at bytes
24..32 and session id at bytes 32..36. -/
def decodeNonProtoPacket (emsg : Nat) (data : List Nat) : GoResult Packet :=
  if data.length < 36 then .error .nonProtoTooShort
  else
    .ok ⟨emsg, false,
      some { emptyHeader with
        steamid := some (leUint64 (data.drop 24)),
        clientSessionid := some (int32OfUint32 (leUint32 (data.drop 32))) },
      data.drop 36⟩

/-- `decodePacket`: read the raw little-endian EMsg word, test the proto
mask bit (`rawEMsg & ProtoMask != 0`) and clear it
(`rawEMsg &^ ProtoMask`, i.e. `rawEMsg & 0x7FFFFFFF`). -/
def decodePacket (unmarshal : List Nat → Option ProtoHeader)
    (data : List Nat) : GoResult Packet :=
  -- rawEMsg = leUint32 data; isProto = rawEMsg &&& ProtoMask ≠ 0;
  -- emsg = rawEMsg &^ ProtoMask = rawEMsg &&& (ProtoMask - 1)
  if data.length < 4 then .error .packetTooShort
  else if leUint32 data &&& ProtoMask ≠ 0 then
    decodeProtoPacket unmarshal (leUint32 data &&& (ProtoMask - 1)) data
  else decodeNonProtoPacket (leUint32 data &&& (ProtoMask - 1)) data

/-- `encodeProtoPacket`: `[EMsg | 0x80000000][header_len][header][body]`,
all little-endian. -/
def encodeProtoPacket (marshal : ProtoHeader → List Nat) (p : Packet) : List Nat :=
  let hdr := p.header.getD emptyHeader
  let hdrBytes := marshal hdr
  putUint32LE (p.emsg ||| ProtoMask) ++ putUint32LE hdrBytes.length ++
    hdrBytes ++ p.body

/-- `encodeNonProtoPacket`: the 36-byte legacy envelope followed by the
body. -/
def encodeNonProtoPacket (p : Packet) : List Nat :=
  putUint32LE p.emsg ++ [36] ++ putUint16LE 2 ++
    putUint64LE 0xFFFFFFFFFFFFFFFF ++ putUint64LE 0xFFFFFFFFFFFFFFFF ++ [0xEF] ++
    putUint64LE (getSteamid p.header) ++ putInt32LE (getClientSessionid p.header) ++
    p.body

/-- `encodePacket` dispatches on the proto flag. -/
def encodePacket (marshal : ProtoHeader → List Nat) (p : Packet) : List Nat :=
  if p.isProto then encodeProtoPacket marshal p else encodeNonProtoPacket p

/-! ### Bit-level bridges for the proto mask -/

theorem ProtoMask_eq : ProtoMask = 2^31 := rfl

theorem lor_two_pow_eq_add {x n : Nat} (h : x < 2^n) : x ||| 2^n = x + 2^n := by
  apply Nat.eq_of_testBit_eq
  intro i
  rw [Nat.testBit_lor]
  rcases lt_trichotomy i n with hi | hi | hi
  · have h2 : Nat.testBit (2^n) i = false := by
      rw [Nat.testBit_two_pow_of_ne (by omega)]
    rw [h2, Bool.or_false, Nat.testBit_to_div_mod, Nat.testBit_to_div_mod]
    have hsplit : 2^n = 2^(n-i-1) * 2 * 2^i := by
      rw [← Nat.pow_succ, ← Nat.pow_add]
      congr 1
      omega
    rw [hsplit, Nat.add_mul_div_right _ _ (Nat.pos_pow_of_pos i (by norm_num))]
    have heq : (x / 2^i + 2^(n-i-1) * 2) % 2 = x / 2^i % 2 := by omega
    rw [heq]
  · subst hi
    have h1 : Nat.testBit x i = false := Nat.testBit_lt_two_pow h
    have h2 : Nat.testBit (2^i) i = true := Nat.testBit_two_pow_self
    rw [h1, h2, Nat.testBit_to_div_mod]
    have hq : (x + 2^i) / 2^i = 1 := by
      rw [Nat.add_div_right _ (Nat.pos_pow_of_pos i (by norm_num))]
      rw [Nat.div_eq_of_lt h]
    simp [hq]
  · have hle : 2^n ≤ 2^i := Nat.pow_le_pow_right (by norm_num) (le_of_lt hi)
    have h1 : Nat.testBit x i = false := Nat.testBit_lt_two_pow (lt_of_lt_of_le h hle)
    have h2 : Nat.testBit (2^n) i = false := by
      rw [Nat.testBit_two_pow_of_ne (by omega)]
    have h3 : Nat.testBit (x + 2^n) i = false := by
      apply Nat.testBit_lt_two_pow
      have h4 : 2^(n+1) ≤ 2^i := Nat.pow_le_pow_right (by norm_num) hi
      have h5 : 2^(n+1) = 2^n + 2^n := by rw [Nat.pow_succ]; omega
      omega
    rw [h1, h2, h3]
    rfl

theorem testBit31_of_masked {x : Nat} (h : x < 2^31) :
    Nat.testBit (x + 2^31) 31 = true := by
  have hq : (x + 2^31) / 2^31 = 1 := by
    rw [Nat.add_div_right _ (by norm_num)]
    rw [Nat.div_eq_of_lt h]
  rw [Nat.testBit_to_div_mod, hq]
  rfl

theorem land_protoMask_masked {x : Nat} (h : x < 2^31) :
    (x + 2^31) &&& ProtoMask ≠ 0 := by
  rw [ProtoMask_eq, Nat.and_two_pow, testBit31_of_masked h]
  norm_num

theorem land_clear_masked {x : Nat} (h : x < 2^31) :
    (x + 2^31) &&& (ProtoMask - 1) = x := by
  rw [ProtoMask_eq]
  have := Nat.and_pow_two_sub_one_eq_mod (x + 2^31) 31
  simp only [this]
  omega

theorem land_protoMask_clear {x : Nat} (h : x < 2^31) :
    x &&& ProtoMask = 0 := by
  rw [ProtoMask_eq, Nat.and_two_pow, Nat.testBit_lt_two_pow h]
  norm_num

theorem land_clear_of_lt {x : Nat} (h : x < 2^31) :
    x &&& (ProtoMask - 1) = x := by
  rw [ProtoMask_eq]
  have := Nat.and_pow_two_sub_one_eq_mod x 31
  simp only [this]
  omega

/-! ### List-prefix helpers for decode-of-encode proofs -/

theorem getD_append_left (l1 l2 : List Nat) (n d : Nat) (h : n < l1.length) :
    (l1 ++ l2).getD n d = l1.getD n d := by
  simp [List.getD_eq_getElem?_getD, List.getElem?_append_left h]

theorem leUint32_append (a b : List Nat) (h : 4 ≤ a.length) :
    leUint32 (a ++ b) = leUint32 a := by
  unfold leUint32
  rw [getD_append_left _ _ _ _ (by omega), getD_append_left _ _ _ _ (by omega),
    getD_append_left _ _ _ _ (by omega), getD_append_left _ _ _ _ (by omega)]

theorem leUint64_append (a b : List Nat) (h : 8 ≤ a.length) :
    leUint64 (a ++ b) = leUint64 a := by
  unfold leUint64
  rw [getD_append_left _ _ _ _ (by omega), getD_append_left _ _ _ _ (by omega),
    getD_append_left _ _ _ _ (by omega), getD_append_left _ _ _ _ (by omega),
    getD_append_left _ _ _ _ (by omega), getD_append_left _ _ _ _ (by omega),
    getD_append_left _ _ _ _ (by omega), getD_append_left _ _ _ _ (by omega)]

theorem drop_append_of_length (a b : List Nat) (n : Nat) (h : a.length = n) :
    (a ++ b).drop n = b := by
  subst h
  exact List.drop_left a b

theorem take_append_of_length (a b : List Nat) (n : Nat) (h : a.length = n) :
    (a ++ b).take n = a := by
  subst h
  exact List.take_left a b

/-- Round trip of the `int32` wire encoding for in-range values. -/
theorem int32_roundtrip (v : Int) (hlo : -(2^31) ≤ v) (hhi : v < 2^31) :
    int32OfUint32 (leUint32 (putInt32LE v)) = v := by
  unfold putInt32LE
  rw [leUint32_putUint32LE]
  unfold int32OfUint32
  split <;> omega

/-! ### A concrete header codec for witnesses

The protobuf wire codec is a library collaborator; claim theorems take the
`marshal`/`unmarshal` pair as parameters with the round-trip law as a
hypothesis.  For witnesses we supply a concrete pair satisfying the law:
a fixed-layout encoding with one flag/value cell pair per optional field
and the variable-length job name last. -/

def optNatEnc : Option Nat → Nat × Nat
  | none => (0, 0)
  | some v => (1, v)

def optNatDec (f v : Nat) : Option Nat :=
  if f = 0 then none else some v

def optIntEnc : Option Int → Nat × Nat
  | none => (0, 0)
  | some v => if 0 ≤ v then (1, v.toNat) else (2, (-v).toNat)

def optIntDec (f v : Nat) : Option Int :=
  if f = 0 then none else if f = 1 then some (v : Int) else some (-(v : Int))

def optListEnc : Option (List Nat) → Nat × List Nat
  | none => (0, [])
  | some l => (1, l)

def optListDec (f : Nat) (l : List Nat) : Option (List Nat) :=
  if f = 0 then none else some l

def trivMarshal (h : ProtoHeader) : List Nat :=
  [(optNatEnc h.steamid).1, (optNatEnc h.steamid).2,
   (optIntEnc h.clientSessionid).1, (optIntEnc h.clientSessionid).2,
   (optNatEnc h.jobidSource).1, (optNatEnc h.jobidSource).2,
   (optNatEnc h.jobidTarget).1, (optNatEnc h.jobidTarget).2,
   (optIntEnc h.eresult).1, (optIntEnc h.eresult).2,
   (optListEnc h.targetJobName).1] ++ (optListEnc h.targetJobName).2

def trivUnmarshal (l : List Nat) : Option ProtoHeader :=
  some ⟨optNatDec (l.getD 0 0) (l.getD 1 0),
        optIntDec (l.getD 2 0) (l.getD 3 0),
        optNatDec (l.getD 4 0) (l.getD 5 0),
        optNatDec (l.getD 6 0) (l.getD 7 0),
        optListDec (l.getD 10 0) (l.drop 11),
        optIntDec (l.getD 8 0) (l.getD 9 0)⟩

theorem optNatDec_enc (o : Option Nat) : optNatDec (optNatEnc o).1 (optNatEnc o).2 = o := by
  cases o <;> simp [optNatEnc, optNatDec]

theorem optIntDec_enc (o : Option Int) : optIntDec (optIntEnc o).1 (optIntEnc o).2 = o := by
  cases o with
  | none => simp [optIntEnc, optIntDec]
  | some v =>
    rcases le_or_lt 0 v with hv | hv
    · simp [optIntEnc, optIntDec, hv, Int.toNat_of_nonneg hv]
    · simp [optIntEnc, optIntDec, not_le.mpr hv]
      omega

theorem optListDec_enc (o : Option (List Nat)) :
    optListDec (optListEnc o).1 (optListEnc o).2 = o := by
  cases o <;> simp [optListEnc, optListDec]

theorem trivUnmarshal_trivMarshal (h : ProtoHeader) :
    trivUnmarshal (trivMarshal h) = some h := by
  unfold trivMarshal trivUnmarshal
  simp only [List.getD_eq_getElem?_getD, List.cons_append, List.nil_append]
  simp [optNatDec_enc, optIntDec_enc, optListDec_enc]

/-! ### C2: decode totality -/

/-- **C2.** Claimed: packet decoding is total — `decodePacket` returns a
FormatError, and never panics, on every malformed input, including a
declared protobuf header length so large that `8 + hdrLen` overflows 32-bit
arithmetic.  The code violates this: on the 8-byte input
`80 00 00 00 | FF FF FF FF` (proto bit set, declared header length
`0xFFFFFFFF`), the Go bounds check `uint32(len(data)) < 8+hdrLen` wraps to
`8 < 7`, passes, and the slice expression `data[8 : 8+hdrLen]` evaluates
`8+hdrLen` to `7` in `uint32`, so Go panics with a slice-bounds violation.
This theorem evaluates the embedding at that failing input. -/
theorem C2_decode_overflow_panics (unmarshal : List Nat → Option ProtoHeader) :
    decodePacket unmarshal [0x00, 0x00, 0x00, 0x80, 0xFF, 0xFF, 0xFF, 0xFF]
      = .panicked := rfl

/-- Witness for C2 at a concrete unmarshal function. -/
theorem C2_decode_overflow_panics_witness :
    decodePacket trivUnmarshal [0x00, 0x00, 0x00, 0x80, 0xFF, 0xFF, 0xFF, 0xFF]
      = .panicked :=
  C2_decode_overflow_panics trivUnmarshal

theorem drop_shift (l s r : List Nat) (m n : Nat)
    (h : l.drop m = s ++ r) (hs : s.length = n) : l.drop (m + n) = r := by
  rw [← List.drop_drop n m l, h]
  exact drop_append_of_length s r n hs

/-- Decoding an encoded protobuf packet recovers the EMsg, header and body. -/
theorem decode_encodeProto (marshal : ProtoHeader → List Nat)
    (unmarshal : List Nat → Option ProtoHeader)
    (hum : ∀ h : ProtoHeader, unmarshal (marshal h) = some h) (p : Packet)
    (hproto : p.isProto = true) (hm : p.emsg < 2^31)
    (htot : 8 + (marshal (p.header.getD emptyHeader)).length + p.body.length < 2^32) :
    decodePacket unmarshal (encodePacket marshal p)
      = .ok ⟨p.emsg, true, some (p.header.getD emptyHeader), p.body⟩ := by
  obtain ⟨em, ip, hd, bd⟩ := p
  simp only at hproto hm htot ⊢
  subst hproto
  have henc : encodePacket marshal ⟨em, true, hd, bd⟩
      = putUint32LE (em ||| ProtoMask) ++
        (putUint32LE (marshal (hd.getD emptyHeader)).length ++
          (marshal (hd.getD emptyHeader) ++ bd)) := rfl
  have hraw : em ||| ProtoMask = em + 2^31 := by
    rw [ProtoMask_eq]
    exact lor_two_pow_eq_add hm
  rw [henc]
  have hL : (putUint32LE (em ||| ProtoMask) ++
      (putUint32LE (marshal (hd.getD emptyHeader)).length ++
        (marshal (hd.getD emptyHeader) ++ bd))).length
      = 8 + (marshal (hd.getD emptyHeader)).length + bd.length := by
    simp [putUint32LE]
    omega
  have hle : leUint32 (putUint32LE (em ||| ProtoMask) ++
      (putUint32LE (marshal (hd.getD emptyHeader)).length ++
        (marshal (hd.getD emptyHeader) ++ bd))) = em + 2^31 := by
    rw [leUint32_append _ _ (by simp [putUint32LE]), leUint32_putUint32LE, hraw]
    exact Nat.mod_eq_of_lt (by omega)
  have hd4 : (putUint32LE (em ||| ProtoMask) ++
      (putUint32LE (marshal (hd.getD emptyHeader)).length ++
        (marshal (hd.getD emptyHeader) ++ bd))).drop 4
      = putUint32LE (marshal (hd.getD emptyHeader)).length ++
        (marshal (hd.getD emptyHeader) ++ bd) :=
    drop_append_of_length _ _ 4 (putUint32LE_length _)
  have hd8 : (putUint32LE (em ||| ProtoMask) ++
      (putUint32LE (marshal (hd.getD emptyHeader)).length ++
        (marshal (hd.getD emptyHeader) ++ bd))).drop 8
      = marshal (hd.getD emptyHeader) ++ bd :=
    drop_shift _ _ _ 4 4 hd4 (putUint32LE_length _)
  have hdhl : (putUint32LE (em ||| ProtoMask) ++
      (putUint32LE (marshal (hd.getD emptyHeader)).length ++
        (marshal (hd.getD emptyHeader) ++ bd))).drop
          (8 + (marshal (hd.getD emptyHeader)).length) = bd :=
    drop_shift _ _ _ 8 (marshal (hd.getD emptyHeader)).length hd8 rfl
  have hlehdr : leUint32 ((putUint32LE (em ||| ProtoMask) ++
      (putUint32LE (marshal (hd.getD emptyHeader)).length ++
        (marshal (hd.getD emptyHeader) ++ bd))).drop 4)
      = (marshal (hd.getD emptyHeader)).length := by
    rw [hd4, leUint32_append _ _ (by simp [putUint32LE]), leUint32_putUint32LE]
    exact Nat.mod_eq_of_lt (by omega)
  unfold decodePacket
  rw [if_neg (by rw [hL]; omega)]
  simp only [hle]
  rw [if_pos (land_protoMask_masked hm), land_clear_masked hm]
  unfold decodeProtoPacket
  rw [if_neg (by rw [hL]; omega)]
  simp only [hlehdr]
  have hm1 : (putUint32LE (em ||| ProtoMask) ++
      (putUint32LE (marshal (hd.getD emptyHeader)).length ++
        (marshal (hd.getD emptyHeader) ++ bd))).length % 2^32
      = 8 + (marshal (hd.getD emptyHeader)).length + bd.length := by
    rw [hL]
    exact Nat.mod_eq_of_lt (by omega)
  have hm2 : (8 + (marshal (hd.getD emptyHeader)).length) % 2^32
      = 8 + (marshal (hd.getD emptyHeader)).length :=
    Nat.mod_eq_of_lt (by omega)
  rw [hm1, hm2]
  rw [if_neg (by omega)]
  rw [if_neg (by omega)]
  rw [hd8]
  have htk : (marshal (hd.getD emptyHeader) ++ bd).take
      (8 + (marshal (hd.getD emptyHeader)).length - 8) = marshal (hd.getD emptyHeader) := by
    have h8 : 8 + (marshal (hd.getD emptyHeader)).length - 8
        = (marshal (hd.getD emptyHeader)).length := by omega
    rw [h8]
    exact take_append_of_length _ _ _ rfl
  rw [htk, hum, hdhl]

/-- Decoding an encoded legacy (non-proto) packet: the proto bit is clear,
the steam id / session id survive, and the body is preserved exactly. -/
theorem decode_encodeNonProto (marshal : ProtoHeader → List Nat)
    (unmarshal : List Nat → Option ProtoHeader) (p : Packet)
    (hproto : p.isProto = false) (hm : p.emsg < 2^31)
    (hsid : getSteamid p.header < 2^64)
    (hses1 : -(2^31) ≤ getClientSessionid p.header)
    (hses2 : getClientSessionid p.header < 2^31) :
    decodePacket unmarshal (encodePacket marshal p)
      = .ok ⟨p.emsg, false,
          some { emptyHeader with
            steamid := some (getSteamid p.header)
            clientSessionid := some (getClientSessionid p.header) },
          p.body⟩ := by
  obtain ⟨em, ip, hd, bd⟩ := p
  simp only at hproto hm hsid hses1 hses2 ⊢
  subst hproto
  have henc : encodePacket marshal ⟨em, false, hd, bd⟩
      = putUint32LE em ++ ([36] ++ (putUint16LE 2 ++ (putUint64LE 0xFFFFFFFFFFFFFFFF ++
        (putUint64LE 0xFFFFFFFFFFFFFFFF ++ ([0xEF] ++ (putUint64LE (getSteamid hd) ++
        (putInt32LE (getClientSessionid hd) ++ bd))))))) := rfl
  rw [henc]
  set D := putUint32LE em ++ ([36] ++ (putUint16LE 2 ++ (putUint64LE 0xFFFFFFFFFFFFFFFF ++
        (putUint64LE 0xFFFFFFFFFFFFFFFF ++ ([0xEF] ++ (putUint64LE (getSteamid hd) ++
        (putInt32LE (getClientSessionid hd) ++ bd))))))) with hD
  have hL : D.length = 36 + bd.length := by
    rw [hD]
    simp [putUint32LE, putUint16LE, putUint64LE, putInt32LE]
    omega
  have hd4 : D.drop 4 = [36] ++ (putUint16LE 2 ++ (putUint64LE 0xFFFFFFFFFFFFFFFF ++
      (putUint64LE 0xFFFFFFFFFFFFFFFF ++ ([0xEF] ++ (putUint64LE (getSteamid hd) ++
      (putInt32LE (getClientSessionid hd) ++ bd)))))) := by
    rw [hD]
    exact drop_append_of_length _ _ 4 (putUint32LE_length _)
  have hd5 : D.drop 5 = putUint16LE 2 ++ (putUint64LE 0xFFFFFFFFFFFFFFFF ++
      (putUint64LE 0xFFFFFFFFFFFFFFFF ++ ([0xEF] ++ (putUint64LE (getSteamid hd) ++
      (putInt32LE (getClientSessionid hd) ++ bd))))) :=
    drop_shift _ _ _ 4 1 hd4 rfl
  have hd7 : D.drop 7 = putUint64LE 0xFFFFFFFFFFFFFFFF ++
      (putUint64LE 0xFFFFFFFFFFFFFFFF ++ ([0xEF] ++ (putUint64LE (getSteamid hd) ++
      (putInt32LE (getClientSessionid hd) ++ bd)))) :=
    drop_shift _ _ _ 5 2 hd5 rfl
  have hd15 : D.drop 15 = putUint64LE 0xFFFFFFFFFFFFFFFF ++ ([0xEF] ++
      (putUint64LE (getSteamid hd) ++ (putInt32LE (getClientSessionid hd) ++ bd))) :=
    drop_shift _ _ _ 7 8 hd7 rfl
  have hd23 : D.drop 23 = [0xEF] ++ (putUint64LE (getSteamid hd) ++
      (putInt32LE (getClientSessionid hd) ++ bd)) :=
    drop_shift _ _ _ 15 8 hd15 rfl
  have hd24 : D.drop 24 = putUint64LE (getSteamid hd) ++
      (putInt32LE (getClientSessionid hd) ++ bd) :=
    drop_shift _ _ _ 23 1 hd23 rfl
  have hd32 : D.drop 32 = putInt32LE (getClientSessionid hd) ++ bd :=
    drop_shift _ _ _ 24 8 hd24 rfl
  have hd36 : D.drop 36 = bd :=
    drop_shift _ _ _ 32 4 hd32 rfl
  have hle : leUint32 D = em := by
    rw [hD, leUint32_append _ _ (by simp [putUint32LE]), leUint32_putUint32LE]
    exact Nat.mod_eq_of_lt (by omega)
  have hsid64 : leUint64 (D.drop 24) = getSteamid hd := by
    rw [hd24, leUint64_append _ _ (by simp [putUint64LE]), leUint64_putUint64LE]
    exact Nat.mod_eq_of_lt hsid
  have hses32 : int32OfUint32 (leUint32 (D.drop 32)) = getClientSessionid hd := by
    rw [hd32, leUint32_append _ _ (by simp [putInt32LE, putUint32LE])]
    exact int32_roundtrip _ hses1 hses2
  unfold decodePacket
  rw [if_neg (by rw [hL]; omega)]
  simp only [hle]
  rw [if_neg (by simp only [land_protoMask_clear hm]; omega), land_clear_of_lt hm]
  unfold decodeNonProtoPacket
  rw [if_neg (by rw [hL]; omega), hsid64, hses32, hd36]

/-- The raw EMsg word of an encoded proto packet has bit 31 set. -/
theorem encodeProto_testBit31 (marshal : ProtoHeader → List Nat) (p : Packet)
    (hproto : p.isProto = true) (hm : p.emsg < 2^31) :
    Nat.testBit (leUint32 (encodePacket marshal p)) 31 = true := by
  obtain ⟨em, ip, hd, bd⟩ := p
  simp only at hproto hm ⊢
  subst hproto
  have henc : encodePacket marshal ⟨em, true, hd, bd⟩
      = putUint32LE (em ||| ProtoMask) ++
        (putUint32LE (marshal (hd.getD emptyHeader)).length ++
          (marshal (hd.getD emptyHeader) ++ bd)) := rfl
  rw [henc, leUint32_append _ _ (by simp [putUint32LE]), leUint32_putUint32LE,
    ProtoMask_eq, lor_two_pow_eq_add hm, Nat.mod_eq_of_lt (by omega)]
  exact testBit31_of_masked hm

/-- The raw EMsg word of an encoded legacy packet has bit 31 clear. -/
theorem encodeNonProto_testBit31 (marshal : ProtoHeader → List Nat) (p : Packet)
    (hproto : p.isProto = false) (hm : p.emsg < 2^31) :
    Nat.testBit (leUint32 (encodePacket marshal p)) 31 = false := by
  obtain ⟨em, ip, hd, bd⟩ := p
  simp only at hproto hm ⊢
  subst hproto
  have henc : encodePacket marshal ⟨em, false, hd, bd⟩
      = putUint32LE em ++ ([36] ++ (putUint16LE 2 ++ (putUint64LE 0xFFFFFFFFFFFFFFFF ++
        (putUint64LE 0xFFFFFFFFFFFFFFFF ++ ([0xEF] ++ (putUint64LE (getSteamid hd) ++
        (putInt32LE (getClientSessionid hd) ++ bd))))))) := rfl
  rw [henc, leUint32_append _ _ (by simp [putUint32LE]), leUint32_putUint32LE,
    Nat.mod_eq_of_lt (by omega)]
  exact Nat.testBit_lt_two_pow hm

/-- **C3.** For every Packet with `IsProto=true` (EMsg in the 31-bit tag
range, total size within 32 bits), `decodePacket (encodePacket p)` preserves
the EMsg, the header fields and the body, and bit 31 of the first
little-endian 32-bit word of the encoding (the proto mask) is set; for
`IsProto=false`, bit 31 is clear in the encoding and the body bytes are
preserved exactly through the round trip (the legacy header keeping steam id
and session id). -/
theorem C3_wire_roundtrip (marshal : ProtoHeader → List Nat)
    (unmarshal : List Nat → Option ProtoHeader)
    (hum : ∀ h : ProtoHeader, unmarshal (marshal h) = some h) :
    (∀ p : Packet, p.isProto = true → p.emsg < 2^31 →
      8 + (marshal (p.header.getD emptyHeader)).length + p.body.length < 2^32 →
      decodePacket unmarshal (encodePacket marshal p)
        = .ok ⟨p.emsg, true, some (p.header.getD emptyHeader), p.body⟩ ∧
      Nat.testBit (leUint32 (encodePacket marshal p)) 31 = true) ∧
    (∀ p : Packet, p.isProto = false → p.emsg < 2^31 →
      getSteamid p.header < 2^64 →
      -(2^31) ≤ getClientSessionid p.header → getClientSessionid p.header < 2^31 →
      Nat.testBit (leUint32 (encodePacket marshal p)) 31 = false ∧
      decodePacket unmarshal (encodePacket marshal p)
        = .ok ⟨p.emsg, false,
            some { emptyHeader with
              steamid := some (getSteamid p.header)
              clientSessionid := some (getClientSessionid p.header) },
            p.body⟩) := by
  constructor
  · intro p hp hm htot
    exact ⟨decode_encodeProto marshal unmarshal hum p hp hm htot,
      encodeProto_testBit31 marshal p hp hm⟩
  · intro p hp hm hsid hses1 hses2
    exact ⟨encodeNonProto_testBit31 marshal p hp hm,
      decode_encodeNonProto marshal unmarshal p hp hm hsid hses1 hses2⟩

/-- A concrete header for the C3 witness. -/
def c3Hdr : ProtoHeader :=
  ⟨some 76561198012345678, some 42, none, none, none, none⟩

/-- A concrete proto packet for the C3 witness. -/
def c3ProtoPkt : Packet := ⟨703, true, some c3Hdr, [9, 9]⟩

/-- A concrete legacy packet for the C3 witness. -/
def c3NonProtoPkt : Packet := ⟨1303, false, some c3Hdr, [1, 2, 3]⟩

/-- Witness for C3: the round trip and mask-bit facts at concrete packets
under the concrete header codec. -/
theorem C3_wire_roundtrip_witness :
    (decodePacket trivUnmarshal (encodePacket trivMarshal c3ProtoPkt)
        = .ok ⟨c3ProtoPkt.emsg, true, some (c3ProtoPkt.header.getD emptyHeader),
            c3ProtoPkt.body⟩ ∧
      Nat.testBit (leUint32 (encodePacket trivMarshal c3ProtoPkt)) 31 = true) ∧
    (Nat.testBit (leUint32 (encodePacket trivMarshal c3NonProtoPkt)) 31 = false ∧
      decodePacket trivUnmarshal (encodePacket trivMarshal c3NonProtoPkt)
        = .ok ⟨c3NonProtoPkt.emsg, false,
            some { emptyHeader with
              steamid := some (getSteamid c3NonProtoPkt.header)
              clientSessionid := some (getClientSessionid c3NonProtoPkt.header) },
            c3NonProtoPkt.body⟩) :=
  ⟨(C3_wire_roundtrip trivMarshal trivUnmarshal trivUnmarshal_trivMarshal).1
      c3ProtoPkt rfl (by decide) (by decide),
   (C3_wire_roundtrip trivMarshal trivUnmarshal trivUnmarshal_trivMarshal).2
      c3NonProtoPkt rfl (by decide) (by decide) (by decide) (by decide)⟩

/-! ## Multi-message expansion (`decodeMulti`)

The loop over `[uint32 LE size][message]` entries.  gzip is a library
collaborator and enters as a `gunzip` parameter (`none` models a gzip
open/read failure). -/

/-- The reader loop of `decodeMulti` over the (possibly decompressed)
payload: read a 4-byte size (clean stop at end-of-stream, error on a
truncated prefix), read that many bytes (error on a short read), decode the
sub-message recursively, and repeat. -/
def decodeMultiLoop (um : List Nat → Option ProtoHeader) (data : List Nat) :
    GoResult (List Packet) :=
  if h : data = [] then .ok []
  else if data.length < 4 then .error .shortSubSize
  else if (data.drop 4).length < leUint32 (data.take 4) then .error .shortSubBody
  else
    match decodePacket um ((data.drop 4).take (leUint32 (data.take 4))) with
    | .panicked => .panicked
    | .error _ => .error .subDecode
    | .ok pkt =>
      match decodeMultiLoop um ((data.drop 4).drop (leUint32 (data.take 4))) with
      | .panicked => .panicked
      | .error e => .error e
      | .ok pkts => .ok (pkt :: pkts)
termination_by data.length
decreasing_by
  simp only [List.length_drop]
  have : data.length ≠ 0 := fun hc => h (List.length_eq_zero.mp hc)
  omega

/-- `decodeMulti`: gzip-decompress when the declared uncompressed size is
positive, then run the entry loop. -/
def decodeMulti (um : List Nat → Option ProtoHeader)
    (gunzip : List Nat → Option (List Nat)) (body : List Nat)
    (sizeUnzipped : Nat) : GoResult (List Packet) :=
  if sizeUnzipped > 0 then
    match gunzip body with
    | none => .error .gzipOpen
    | some payload => decodeMultiLoop um payload
  else decodeMultiLoop um body

theorem decodeMultiLoop_nil (um : List Nat → Option ProtoHeader) :
    decodeMultiLoop um [] = .ok [] := by
  rw [decodeMultiLoop]
  simp

/-- One entry of the loop, with more entries following. -/
theorem decodeMultiLoop_step (um : List Nat → Option ProtoHeader)
    (d rest : List Nat) (hlen : d.length < 2^32) :
    decodeMultiLoop um (putUint32LE d.length ++ (d ++ rest)) =
      match decodePacket um d with
      | .panicked => .panicked
      | .error _ => .error .subDecode
      | .ok pkt =>
        match decodeMultiLoop um rest with
        | .panicked => .panicked
        | .error e => .error e
        | .ok pkts => .ok (pkt :: pkts) := by
  have hne : putUint32LE d.length ++ (d ++ rest) ≠ [] := by
    intro hc
    have := congrArg List.length hc
    simp [putUint32LE] at this
  have hL : (putUint32LE d.length ++ (d ++ rest)).length = 4 + d.length + rest.length := by
    simp [putUint32LE]
    omega
  have htake4 : (putUint32LE d.length ++ (d ++ rest)).take 4 = putUint32LE d.length :=
    take_append_of_length _ _ 4 (putUint32LE_length _)
  have hdrop4 : (putUint32LE d.length ++ (d ++ rest)).drop 4 = d ++ rest :=
    drop_append_of_length _ _ 4 (putUint32LE_length _)
  have hsz : leUint32 ((putUint32LE d.length ++ (d ++ rest)).take 4) = d.length := by
    rw [htake4, leUint32_putUint32LE]
    exact Nat.mod_eq_of_lt hlen
  rw [decodeMultiLoop]
  rw [dif_neg hne, if_neg (by rw [hL]; omega)]
  rw [hsz, hdrop4]
  rw [if_neg (by simp only [List.length_append]; omega)]
  rw [take_append_of_length d rest d.length rfl, drop_append_of_length d rest d.length rfl]

/-- **C7.** Two independently encoded sub-packets concatenated per the
length-prefixed scheme decode to exactly those two packets in order, both
when the body is gzip-compressed (declared uncompressed size positive) and
when it is uncompressed; decoding stops cleanly at end of stream; a
truncated size prefix, a truncated sub-message, or a sub-message that fails
to decode makes `decodeMulti` return an error with no packets delivered. -/
theorem C7_decodeMulti (um : List Nat → Option ProtoHeader)
    (gunzip : List Nat → Option (List Nat)) :
    (∀ d1 d2 q1 q2 : _, decodePacket um d1 = .ok q1 → decodePacket um d2 = .ok q2 →
      d1.length < 2^32 → d2.length < 2^32 →
      decodeMulti um gunzip
        (putUint32LE d1.length ++ (d1 ++ (putUint32LE d2.length ++ (d2 ++ [])))) 0
        = .ok [q1, q2]) ∧
    (∀ n body payload d1 d2 q1 q2, 0 < n → gunzip body = some payload →
      payload = putUint32LE d1.length ++ (d1 ++ (putUint32LE d2.length ++ (d2 ++ []))) →
      decodePacket um d1 = .ok q1 → decodePacket um d2 = .ok q2 →
      d1.length < 2^32 → d2.length < 2^32 →
      decodeMulti um gunzip body n = .ok [q1, q2]) ∧
    (decodeMultiLoop um [] = .ok []) ∧
    (∀ l : List Nat, l ≠ [] → l.length < 4 →
      decodeMultiLoop um l = .error .shortSubSize) ∧
    (∀ sz rest : _, rest.length < sz → sz < 2^32 →
      decodeMultiLoop um (putUint32LE sz ++ rest) = .error .shortSubBody) ∧
    (∀ d e rest, decodePacket um d = .error e → d.length < 2^32 →
      decodeMultiLoop um (putUint32LE d.length ++ (d ++ rest))
        = .error .subDecode) := by
  have hpair : ∀ d1 d2 q1 q2 : _, decodePacket um d1 = .ok q1 →
      decodePacket um d2 = .ok q2 → d1.length < 2^32 → d2.length < 2^32 →
      decodeMultiLoop um
        (putUint32LE d1.length ++ (d1 ++ (putUint32LE d2.length ++ (d2 ++ []))))
        = .ok [q1, q2] := by
    intro d1 d2 q1 q2 h1 h2 hl1 hl2
    rw [decodeMultiLoop_step um d1 _ hl1, h1,
      decodeMultiLoop_step um d2 [] hl2, h2, decodeMultiLoop_nil]
  refine ⟨?_, ?_, decodeMultiLoop_nil um, ?_, ?_, ?_⟩
  · intro d1 d2 q1 q2 h1 h2 hl1 hl2
    unfold decodeMulti
    rw [if_neg (by omega)]
    exact hpair d1 d2 q1 q2 h1 h2 hl1 hl2
  · intro n body payload d1 d2 q1 q2 hn hgz hpayload h1 h2 hl1 hl2
    unfold decodeMulti
    rw [if_pos hn, hgz, hpayload]
    exact hpair d1 d2 q1 q2 h1 h2 hl1 hl2
  · intro l hne h4
    rw [decodeMultiLoop]
    rw [dif_neg hne, if_pos h4]
  · intro sz rest hshort hsz
    have hne : putUint32LE sz ++ rest ≠ [] := by
      intro hc
      have := congrArg List.length hc
      simp [putUint32LE] at this
    have hL : (putUint32LE sz ++ rest).length = 4 + rest.length := by
      simp [putUint32LE]
      omega
    have htake4 : (putUint32LE sz ++ rest).take 4 = putUint32LE sz :=
      take_append_of_length _ _ 4 (putUint32LE_length _)
    have hdrop4 : (putUint32LE sz ++ rest).drop 4 = rest :=
      drop_append_of_length _ _ 4 (putUint32LE_length _)
    rw [decodeMultiLoop]
    rw [dif_neg hne, if_neg (by rw [hL]; omega)]
    rw [htake4, leUint32_putUint32LE, Nat.mod_eq_of_lt hsz, hdrop4, if_pos hshort]
  · intro d e rest hd hl
    rw [decodeMultiLoop_step um d rest hl, hd]

/-- A concrete well-formed legacy sub-message for the C7 witness
(36 zero bytes: EMsg 0, proto bit clear, empty body). -/
def c7Entry : List Nat := List.replicate 36 0

/-- What `decodePacket` yields on `c7Entry`. -/
def c7Pkt : Packet :=
  ⟨0, false,
    some { emptyHeader with steamid := some 0, clientSessionid := some 0 }, []⟩

/-- Witness for C7: two concrete length-prefixed entries decode to exactly
those two packets, in order. -/
theorem C7_decodeMulti_witness :
    decodePacket trivUnmarshal c7Entry = .ok c7Pkt ∧
    decodeMulti trivUnmarshal (fun b => some b)
      (putUint32LE c7Entry.length ++
        (c7Entry ++ (putUint32LE c7Entry.length ++ (c7Entry ++ [])))) 0
      = .ok [c7Pkt, c7Pkt] :=
  ⟨by decide,
   (C7_decodeMulti trivUnmarshal (fun b => some b)).1 c7Entry c7Entry c7Pkt c7Pkt
     (by decide) (by decide) (by decide) (by decide)⟩

/-! ## Job correlation (`Client.handlePacket` lines dispatching by job id,
`Client.expectJobID`)

The pending-job registry is the Go map `pendingJobs : map[uint64]chan<- *Packet`
(modelled as an association list job id → channel index) and the single-slot
buffered channels (modelled by their contents, `none` = empty).  The
dispatch step of `handlePacket` looks the target job id up, deletes the
entry, and performs a non-blocking send (`select`/`default`). -/

structure JobState where
  pendingJobs : List (Nat × Nat)
  chans : List (Option Packet)
deriving DecidableEq, Repr

/-- Go map lookup `ch, ok := c.pendingJobs[id]`. -/
def lookupJob (jobs : List (Nat × Nat)) (id : Nat) : Option Nat :=
  (jobs.find? (fun e => e.1 == id)).map (fun e => e.2)

/-- Go map delete `delete(c.pendingJobs, id)`. -/
def removeJob (jobs : List (Nat × Nat)) (id : Nat) : List (Nat × Nat) :=
  jobs.filter (fun e => e.1 != id)

/-- Non-blocking send on a single-slot channel
(`select { case ch <- pkt: ... default: }`): fill the slot when empty,
drop the packet when full. -/
def trySend (chans : List (Option Packet)) (i : Nat) (pkt : Packet) :
    List (Option Packet) :=
  match chans.getD i none with
  | none => chans.set i (some pkt)
  | some _ => chans

/-- The job-correlation step of `handlePacket`: match on
`pkt.Header.GetJobidTarget()`, deregister, then deliver non-blockingly. -/
def dispatchJob (s : JobState) (pkt : Packet) : JobState :=
  match lookupJob s.pendingJobs (getJobidTarget pkt.header) with
  | some ch =>
    { pendingJobs := removeJob s.pendingJobs (getJobidTarget pkt.header),
      chans := trySend s.chans ch pkt }
  | none => s

/-- `Client.expectJobID`: allocate a fresh empty single-slot channel and
register it under the job id. -/
def expectJobID (s : JobState) (jobID : Nat) : JobState × Nat :=
  ({ pendingJobs := (jobID, s.chans.length) :: s.pendingJobs,
     chans := s.chans ++ [none] }, s.chans.length)

theorem lookupJob_removeJob (jobs : List (Nat × Nat)) (id : Nat) :
    lookupJob (removeJob jobs id) id = none := by
  unfold lookupJob removeJob
  induction jobs with
  | nil => rfl
  | cons e t ih =>
    rw [List.filter_cons]
    by_cases he : e.1 = id
    · rw [if_neg (by simp [he])]
      exact ih
    · rw [if_pos (by simp [he]), List.find?_cons_of_neg _ (by simp [he])]
      exact ih

theorem getD_set_ne (l : List (Option Packet)) (i j : Nat) (v : Option Packet)
    (h : j ≠ i) : (l.set i v).getD j none = l.getD j none := by
  simp [List.getD_eq_getElem?_getD, List.getElem?_set_ne (by omega : i ≠ j)]

/-- **C4.** If the dispatched packet's target job id matches a registered
pending job, `handlePacket` removes that registration and delivers the
packet by a non-blocking send to exactly that job's single-slot channel
(the slot is filled when empty, the packet is dropped when it is full, and
no other channel changes); if no registered id matches, no job channel
changes and the registry is untouched — the dispatch step is a total
function and never panics. -/
theorem C4_job_dispatch (s : JobState) (pkt : Packet) :
    (∀ ch : Nat, lookupJob s.pendingJobs (getJobidTarget pkt.header) = some ch →
      (dispatchJob s pkt).pendingJobs
          = removeJob s.pendingJobs (getJobidTarget pkt.header) ∧
      lookupJob (dispatchJob s pkt).pendingJobs (getJobidTarget pkt.header) = none ∧
      (dispatchJob s pkt).chans = trySend s.chans ch pkt ∧
      (ch < s.chans.length → s.chans.getD ch none = none →
        (dispatchJob s pkt).chans.getD ch none = some pkt) ∧
      (∀ q : Packet, s.chans.getD ch none = some q →
        (dispatchJob s pkt).chans = s.chans) ∧
      (∀ j : Nat, j ≠ ch →
        (dispatchJob s pkt).chans.getD j none = s.chans.getD j none)) ∧
    (lookupJob s.pendingJobs (getJobidTarget pkt.header) = none →
      dispatchJob s pkt = s) := by
  constructor
  · intro ch hch
    have hdisp : dispatchJob s pkt
        = { pendingJobs := removeJob s.pendingJobs (getJobidTarget pkt.header),
            chans := trySend s.chans ch pkt } := by
      unfold dispatchJob
      rw [hch]
    refine ⟨by rw [hdisp], ?_, by rw [hdisp], ?_, ?_, ?_⟩
    · rw [hdisp]
      exact lookupJob_removeJob s.pendingJobs (getJobidTarget pkt.header)
    · intro hlt hempty
      rw [hdisp]
      show (trySend s.chans ch pkt).getD ch none = some pkt
      unfold trySend
      rw [hempty]
      simp [List.getD_eq_getElem?_getD, List.getElem?_set_self, hlt]
    · intro q hfull
      rw [hdisp]
      show trySend s.chans ch pkt = s.chans
      unfold trySend
      rw [hfull]
    · intro j hj
      rw [hdisp]
      show (trySend s.chans ch pkt).getD j none = s.chans.getD j none
      unfold trySend
      cases s.chans.getD ch none with
      | none => exact getD_set_ne s.chans ch j (some pkt) hj
      | some q => rfl
  · intro hnone
    unfold dispatchJob
    rw [hnone]

/-- Concrete registry state for the C4 witness: job 7 registered on
channel 0, one empty channel. -/
def c4State : JobState := ⟨[(7, 0)], [none]⟩

/-- Concrete response packet for the C4 witness (target job id 7). -/
def c4Pkt : Packet := ⟨146, true, some ⟨none, none, none, some 7, none, none⟩, []⟩

/-- Witness for C4: the registered job receives the packet and is
deregistered, at a concrete state. -/
theorem C4_job_dispatch_witness :
    lookupJob c4State.pendingJobs (getJobidTarget c4Pkt.header) = some 0 ∧
    (dispatchJob c4State c4Pkt).pendingJobs
      = removeJob c4State.pendingJobs (getJobidTarget c4Pkt.header) ∧
    lookupJob (dispatchJob c4State c4Pkt).pendingJobs (getJobidTarget c4Pkt.header)
      = none ∧
    (dispatchJob c4State c4Pkt).chans.getD 0 none = some c4Pkt :=
  ⟨by decide,
   ((C4_job_dispatch c4State c4Pkt).1 0 (by decide)).1,
   ((C4_job_dispatch c4State c4Pkt).1 0 (by decide)).2.1,
   ((C4_job_dispatch c4State c4Pkt).1 0 (by decide)).2.2.2.1 (by decide) (by decide)⟩

/-! ## Disconnect lifecycle (`Client.fireDisconnect`, `closeOnce`,
`handlePacket` forced-logoff path, `Client.Disconnect`)

`sync.Once` latches modelled by consumed flags; the callback-invocation and
close(done) executions are counted so "exactly once" is a statement about
the counts.  The three trigger paths within one connection lifecycle:
`Client.Disconnect` runs `closeOnce.Do(close)`; the read-loop error path
runs `fireDisconnect`; the server-initiated logged-off path runs
`fireDisconnect` then `closeOnce.Do(close)`. -/

structure LifecycleState where
  loggedIn : Bool
  disconnectOnceUsed : Bool
  closeOnceUsed : Bool
  callbackInvocations : Nat
  doneCloseCount : Nat
deriving DecidableEq, Repr

/-- The state of a freshly connected (and logged-in) client: both
`sync.Once` latches unused, no callback fired, done not closed. -/
def initLifecycle : LifecycleState := ⟨true, false, false, 0, 0⟩

/-- `Client.fireDisconnect`: `disconnectOnce.Do` of clearing the logged-in
flag and invoking `OnDisconnect` when a handler is installed. -/
def fireDisconnect (hasHandler : Bool) (s : LifecycleState) : LifecycleState :=
  if s.disconnectOnceUsed then s
  else { s with
    disconnectOnceUsed := true
    loggedIn := false
    callbackInvocations := s.callbackInvocations + (if hasHandler then 1 else 0) }

/-- `closeOnce.Do(func() { close(c.done) })`. -/
def closeDone (s : LifecycleState) : LifecycleState :=
  if s.closeOnceUsed then s
  else { s with closeOnceUsed := true, doneCloseCount := s.doneCloseCount + 1 }

/-- The disconnect trigger paths that can interleave on one connection. -/
inductive DisconnectTrigger where
  | clientInitiated
  | readError
  | serverLoggedOff
deriving DecidableEq, Repr

/-- Whether a trigger path calls `fireDisconnect`. -/
def firesCallback : DisconnectTrigger → Bool
  | .clientInitiated => false
  | .readError => true
  | .serverLoggedOff => true

/-- Whether a trigger path runs `closeOnce.Do(close)`. -/
def closesDone : DisconnectTrigger → Bool
  | .clientInitiated => true
  | .readError => false
  | .serverLoggedOff => true

def applyTrigger (hasHandler : Bool) (s : LifecycleState) :
    DisconnectTrigger → LifecycleState
  | .clientInitiated => closeDone s
  | .readError => fireDisconnect hasHandler s
  | .serverLoggedOff => closeDone (fireDisconnect hasHandler s)

def runTriggers (hasHandler : Bool) :
    LifecycleState → List DisconnectTrigger → LifecycleState
  | s, [] => s
  | s, t :: ts => runTriggers hasHandler (applyTrigger hasHandler s t) ts

theorem runTriggers_spec (h : Bool) : ∀ (ts : List DisconnectTrigger)
    (s : LifecycleState),
    s.callbackInvocations = (if s.disconnectOnceUsed && h then 1 else 0) →
    s.doneCloseCount = (if s.closeOnceUsed then 1 else 0) →
    (runTriggers h s ts).disconnectOnceUsed
        = (s.disconnectOnceUsed || ts.any firesCallback) ∧
    (runTriggers h s ts).closeOnceUsed = (s.closeOnceUsed || ts.any closesDone) ∧
    (runTriggers h s ts).callbackInvocations
        = (if (s.disconnectOnceUsed || ts.any firesCallback) && h then 1 else 0) ∧
    (runTriggers h s ts).doneCloseCount
        = (if s.closeOnceUsed || ts.any closesDone then 1 else 0) := by
  intro ts
  induction ts with
  | nil =>
    intro s hc hd
    simp [runTriggers, hc, hd]
  | cons t ts ih =>
    intro s hc hd
    have hstep : ∀ s' : LifecycleState,
        s' = applyTrigger h s t →
        s'.disconnectOnceUsed = (s.disconnectOnceUsed || firesCallback t) ∧
        s'.closeOnceUsed = (s.closeOnceUsed || closesDone t) ∧
        s'.callbackInvocations
            = (if (s.disconnectOnceUsed || firesCallback t) && h then 1 else 0) ∧
        s'.doneCloseCount
            = (if s.closeOnceUsed || closesDone t then 1 else 0) := by
      intro s' hs'
      subst hs'
      cases t <;>
        simp only [applyTrigger, fireDisconnect, closeDone, firesCallback, closesDone] <;>
        by_cases h1 : s.disconnectOnceUsed <;>
        by_cases h2 : s.closeOnceUsed <;>
        simp [h1, h2] at hc hd ⊢ <;>
        simp [hc, hd]
    obtain ⟨e1, e2, e3, e4⟩ := hstep (applyTrigger h s t) rfl
    have := ih (applyTrigger h s t) (by rw [e3, e1]) (by rw [e4, e2])
    obtain ⟨f1, f2, f3, f4⟩ := this
    refine ⟨?_, ?_, ?_, ?_⟩
    · show (runTriggers h (applyTrigger h s t) ts).disconnectOnceUsed = _
      rw [f1, e1]
      simp [Bool.or_assoc]
    · show (runTriggers h (applyTrigger h s t) ts).closeOnceUsed = _
      rw [f2, e2]
      simp [Bool.or_assoc]
    · show (runTriggers h (applyTrigger h s t) ts).callbackInvocations = _
      rw [f3, e1]
      simp [Bool.or_assoc]
    · show (runTriggers h (applyTrigger h s t) ts).doneCloseCount = _
      rw [f4, e2]
      simp [Bool.or_assoc]

/-- **C8.** Per connection lifecycle: across any interleaving of the
client-initiated, read-error and server-initiated logged-off trigger paths,
the `OnDisconnect` callback is invoked exactly once when a handler is
installed and any path fired it (zero times otherwise), the shared done
signal is closed exactly once when any path closed it — so a second
`fireDisconnect` never re-invokes the callback and a double close is
impossible (both `Do` bodies are no-ops once their latch is consumed). -/
theorem C8_disconnect_once (h : Bool) (ts : List DisconnectTrigger) :
    ((runTriggers h initLifecycle ts).callbackInvocations
        = (if ts.any firesCallback && h then 1 else 0)) ∧
    ((runTriggers h initLifecycle ts).doneCloseCount
        = (if ts.any closesDone then 1 else 0)) ∧
    (runTriggers h initLifecycle ts).callbackInvocations ≤ 1 ∧
    (runTriggers h initLifecycle ts).doneCloseCount ≤ 1 ∧
    (∀ s : LifecycleState, fireDisconnect h (fireDisconnect h s)
        = fireDisconnect h s) ∧
    (∀ s : LifecycleState, closeDone (closeDone s) = closeDone s) := by
  obtain ⟨e1, e2, e3, e4⟩ := runTriggers_spec h ts initLifecycle (by rfl) (by rfl)
  refine ⟨?_, ?_, ?_, ?_, ?_, ?_⟩
  · rw [e3]; rfl
  · rw [e4]; rfl
  · rw [e3]; split <;> omega
  · rw [e4]; split <;> omega
  · intro s
    unfold fireDisconnect
    by_cases h1 : s.disconnectOnceUsed <;> simp [h1]
  · intro s
    unfold closeDone
    by_cases h1 : s.closeOnceUsed <;> simp [h1]

/-- Witness for C8: client-initiated and server-initiated triggers
interleaved — one callback invocation, one close. -/
theorem C8_disconnect_once_witness :
    (runTriggers true initLifecycle
        [.serverLoggedOff, .clientInitiated, .readError]).callbackInvocations = 1 ∧
    (runTriggers true initLifecycle
        [.serverLoggedOff, .clientInitiated, .readError]).doneCloseCount = 1 :=
  ⟨(C8_disconnect_once true [.serverLoggedOff, .clientInitiated, .readError]).1,
   (C8_disconnect_once true [.serverLoggedOff, .clientInitiated, .readError]).2.1⟩

/-! ## Outgoing packets (`Client.sendPacket`)

`sendPacket` reads the login state under the mutex and, when logged in,
overwrites the caller header's `Steamid` and `ClientSessionid` with the
client's stored identity (`steamid.SteamID` is a bare `uint64` wrapper, so
`ToSteamID64`/`FromSteamID64` are the identity on the numeric value). -/

/-- The packet `Client.sendPacket` builds before encoding: a nil header is
replaced by the empty header, and the identity fields are stamped while
logged in. -/
def sendPacketBuild (loggedIn : Bool) (steamID64 : Nat) (sessionID : Int)
    (emsg : Nat) (hdr0 : Option ProtoHeader) (body : List Nat) : Packet :=
  let hdr := hdr0.getD emptyHeader
  let hdr' := if loggedIn then
      { hdr with steamid := some steamID64, clientSessionid := some sessionID }
    else hdr
  ⟨emsg, true, some hdr', body⟩

/-- **C9.** While the logged-in flag is set, every packet sent through
`sendPacket` carries the negotiated identity: the caller header's `Steamid`
and `ClientSessionid` are overwritten with the client's stored steam id and
session id, and every other header field, the EMsg and the body are
unchanged; while not logged in, the caller-supplied header passes through
unmodified. -/
theorem C9_sendPacket_identity (loggedIn : Bool) (steamID64 : Nat) (sessionID : Int)
    (emsg : Nat) (hdr0 : Option ProtoHeader) (body : List Nat) :
    ((sendPacketBuild loggedIn steamID64 sessionID emsg hdr0 body).emsg = emsg ∧
     (sendPacketBuild loggedIn steamID64 sessionID emsg hdr0 body).isProto = true ∧
     (sendPacketBuild loggedIn steamID64 sessionID emsg hdr0 body).body = body) ∧
    (loggedIn = true →
      ∃ h' : ProtoHeader,
        (sendPacketBuild loggedIn steamID64 sessionID emsg hdr0 body).header = some h' ∧
        h'.steamid = some steamID64 ∧
        h'.clientSessionid = some sessionID ∧
        h'.jobidSource = (hdr0.getD emptyHeader).jobidSource ∧
        h'.jobidTarget = (hdr0.getD emptyHeader).jobidTarget ∧
        h'.targetJobName = (hdr0.getD emptyHeader).targetJobName ∧
        h'.eresult = (hdr0.getD emptyHeader).eresult) ∧
    (loggedIn = false →
      (sendPacketBuild loggedIn steamID64 sessionID emsg hdr0 body).header
        = some (hdr0.getD emptyHeader)) := by
  refine ⟨⟨rfl, rfl, rfl⟩, ?_, ?_⟩
  · intro hl
    subst hl
    exact ⟨_, rfl, rfl, rfl, rfl, rfl, rfl, rfl⟩
  · intro hl
    subst hl
    rfl

/-- Witness for C9: the identity stamping at a concrete logged-in state and
caller header. -/
theorem C9_sendPacket_identity_witness :
    ∃ h' : ProtoHeader,
      (sendPacketBuild true 76561198012345678 42 5514
          (some ⟨some 1, some 2, some 3, some 4, some [65], some 6⟩) [7]).header
        = some h' ∧
      h'.steamid = some 76561198012345678 ∧
      h'.clientSessionid = some 42 ∧
      h'.jobidSource = ((some (⟨some 1, some 2, some 3, some 4, some [65], some 6⟩ :
          ProtoHeader)).getD emptyHeader).jobidSource ∧
      h'.jobidTarget = ((some (⟨some 1, some 2, some 3, some 4, some [65], some 6⟩ :
          ProtoHeader)).getD emptyHeader).jobidTarget ∧
      h'.targetJobName = ((some (⟨some 1, some 2, some 3, some 4, some [65], some 6⟩ :
          ProtoHeader)).getD emptyHeader).targetJobName ∧
      h'.eresult = ((some (⟨some 1, some 2, some 3, some 4, some [65], some 6⟩ :
          ProtoHeader)).getD emptyHeader).eresult :=
  (C9_sendPacket_identity true 76561198012345678 42 5514
    (some ⟨some 1, some 2, some 3, some 4, some [65], some 6⟩) [7]).2.1 rfl

/-! ## TCP encryption handshake (`tcpConn.performEncryptionHandshake`)

RSA-OAEP encryption (`rsaEncryptSessionKey`) and CRC32 are library
collaborators and enter as parameters; `sessionKey` stands for the 32
random bytes from `rand.Read`.  The function consumes the two inbound
messages (`ChannelEncryptRequest` data and `ChannelEncryptResult` data) and
yields the response bytes to send plus the cipher configuration. -/

inductive HandshakeError where
  | requestTooShort
  | wrongRequestEMsg
  | rsaFailure
  | resultTooShort
  | wrongResultEMsg
  | badEResult
  | cipherInit
deriving DecidableEq, Repr

structure HandshakeOutcome where
  response : List Nat
  useHMAC : Bool
  challenge : Option (List Nat)
deriving DecidableEq, Repr

/-- `tcpConn.performEncryptionHandshake`: parse the request (20-byte legacy
`MsgHdr` + body), extract the optional 16-byte challenge from body bytes
8..24, RSA-encrypt sessionKey (‖ challenge if present), build the
`ChannelEncryptResponse`, check the `ChannelEncryptResult`, and construct
the cipher with HMAC mode iff a challenge was present. -/
def performEncryptionHandshake (rsaEncrypt : List Nat → Option (List Nat))
    (crc32 : List Nat → Nat) (sessionKey reqData resultData : List Nat) :
    Except HandshakeError HandshakeOutcome :=
  if reqData.length < 20 + 8 then .error .requestTooShort
  else if leUint32 reqData ≠ EMsgChannelEncryptRequest then .error .wrongRequestEMsg
  else
    match rsaEncrypt (if 24 ≤ (reqData.drop 20).length
        then sessionKey ++ ((reqData.drop 20).drop 8).take 16
        else sessionKey) with
    | none => .error .rsaFailure
    | some encryptedBlob =>
      if resultData.length < 20 + 4 then .error .resultTooShort
      else if leUint32 resultData ≠ EMsgChannelEncryptResult then .error .wrongResultEMsg
      else if leUint32 (resultData.drop 20) ≠ 1 then .error .badEResult
      else if sessionKey.length ≠ 32 then .error .cipherInit
      else
        .ok ⟨putUint32LE EMsgChannelEncryptResponse ++ putUint64LE 0xFFFFFFFFFFFFFFFF ++
              putUint64LE 0xFFFFFFFFFFFFFFFF ++ putUint32LE 1 ++ putUint32LE 128 ++
              encryptedBlob ++ putUint32LE (crc32 encryptedBlob) ++ putUint32LE 0,
            decide (24 ≤ (reqData.drop 20).length),
            if 24 ≤ (reqData.drop 20).length
              then some (((reqData.drop 20).drop 8).take 16) else none⟩

/-- **C5.** After a successful TCP encryption handshake, the resulting
channel cipher has HMAC mode enabled if and only if the
`ChannelEncryptRequest` carried a challenge — its body (everything past the
20-byte header) was at least 24 bytes — and the challenge is bytes 8..24 of
that body. -/
theorem C5_hmac_iff_challenge (rsaEncrypt : List Nat → Option (List Nat))
    (crc32 : List Nat → Nat) (sessionKey reqData resultData : List Nat)
    (out : HandshakeOutcome)
    (h : performEncryptionHandshake rsaEncrypt crc32 sessionKey reqData resultData
        = .ok out) :
    (out.useHMAC = true ↔ 24 ≤ (reqData.drop 20).length) ∧
    (out.useHMAC = true →
      out.challenge = some (((reqData.drop 20).drop 8).take 16)) ∧
    (out.useHMAC = false → out.challenge = none) := by
  unfold performEncryptionHandshake at h
  split at h
  · exact absurd h (by simp)
  · split at h
    · exact absurd h (by simp)
    · split at h
      · exact absurd h (by simp)
      · split at h
        · exact absurd h (by simp)
        · split at h
          · exact absurd h (by simp)
          · split at h
            · exact absurd h (by simp)
            · split at h
              · exact absurd h (by simp)
              · have hout := (Except.ok.inj h).symm
                subst hout
                refine ⟨?_, ?_, ?_⟩
                · show decide (24 ≤ (reqData.drop 20).length) = true ↔
                    24 ≤ (reqData.drop 20).length
                  exact decide_eq_true_iff
                · intro htrue
                  have hc := of_decide_eq_true htrue
                  show (if 24 ≤ (reqData.drop 20).length
                      then some (((reqData.drop 20).drop 8).take 16) else none)
                    = some (((reqData.drop 20).drop 8).take 16)
                  rw [if_pos hc]
                · intro hfalse
                  have hc := of_decide_eq_false hfalse
                  show (if 24 ≤ (reqData.drop 20).length
                      then some (((reqData.drop 20).drop 8).take 16) else none)
                    = none
                  rw [if_neg hc]

/-- Concrete values for the C5 witness. -/
def c5Key : List Nat := List.replicate 32 0

def c5Challenge : List Nat := List.replicate 16 1

def c5Req : List Nat :=
  putUint32LE 1303 ++ (List.replicate 16 0 ++ (List.replicate 8 0 ++ c5Challenge))

def c5Res : List Nat := putUint32LE 1305 ++ (List.replicate 16 0 ++ putUint32LE 1)

def c5Out : HandshakeOutcome :=
  ⟨putUint32LE 1304 ++ putUint64LE 0xFFFFFFFFFFFFFFFF ++
      putUint64LE 0xFFFFFFFFFFFFFFFF ++ putUint32LE 1 ++ putUint32LE 128 ++
      (c5Key ++ c5Challenge) ++ putUint32LE 0 ++ putUint32LE 0,
    true, some c5Challenge⟩

/-- Witness for C5: a concrete handshake with a 24-byte body succeeds and
enables HMAC mode. -/
theorem C5_hmac_iff_challenge_witness :
    performEncryptionHandshake (fun b => some b) (fun _ => 0) c5Key c5Req c5Res
      = .ok c5Out ∧
    (c5Out.useHMAC = true ↔ 24 ≤ (c5Req.drop 20).length) :=
  ⟨by decide,
   (C5_hmac_iff_challenge (fun b => some b) (fun _ => 0) c5Key c5Req c5Res c5Out
     (by decide)).1⟩

/-! ## AES-256 and HMAC-SHA1 (the `crypto/aes`, `crypto/hmac`, `crypto/sha1`
collaborators)

Executable definitions of the primitives `newChannelCipher` wires into a
`channelCipher`, needed to evaluate the cipher at concrete inputs.  The
S-boxes are the standard AES tables; correctness is checked below against
the NIST SP 800-38A ECB-AES256 vector, the SHA-1 `"abc"` vector and the
RFC 2202 HMAC-SHA1 test case 2. -/

def aesSbox : List Nat := [
  99, 124, 119, 123, 242, 107, 111, 197, 48, 1, 103, 43, 254, 215, 171, 118,
  202, 130, 201, 125, 250, 89, 71, 240, 173, 212, 162, 175, 156, 164, 114, 192,
  183, 253, 147, 38, 54, 63, 247, 204, 52, 165, 229, 241, 113, 216, 49, 21,
  4, 199, 35, 195, 24, 150, 5, 154, 7, 18, 128, 226, 235, 39, 178, 117,
  9, 131, 44, 26, 27, 110, 90, 160, 82, 59, 214, 179, 41, 227, 47, 132,
  83, 209, 0, 237, 32, 252, 177, 91, 106, 203, 190, 57, 74, 76, 88, 207,
  208, 239, 170, 251, 67, 77, 51, 133, 69, 249, 2, 127, 80, 60, 159, 168,
  81, 163, 64, 143, 146, 157, 56, 245, 188, 182, 218, 33, 16, 255, 243, 210,
  205, 12, 19, 236, 95, 151, 68, 23, 196, 167, 126, 61, 100, 93, 25, 115,
  96, 129, 79, 220, 34, 42, 144, 136, 70, 238, 184, 20, 222, 94, 11, 219,
  224, 50, 58, 10, 73, 6, 36, 92, 194, 211, 172, 98, 145, 149, 228, 121,
  231, 200, 55, 109, 141, 213, 78, 169, 108, 86, 244, 234, 101, 122, 174, 8,
  186, 120, 37, 46, 28, 166, 180, 198, 232, 221, 116, 31, 75, 189, 139, 138,
  112, 62, 181, 102, 72, 3, 246, 14, 97, 53, 87, 185, 134, 193, 29, 158,
  225, 248, 152, 17, 105, 217, 142, 148, 155, 30, 135, 233, 206, 85, 40, 223,
  140, 161, 137, 13, 191, 230, 66, 104, 65, 153, 45, 15, 176, 84, 187, 22]

def aesInvSbox : List Nat := [
  82, 9, 106, 213, 48, 54, 165, 56, 191, 64, 163, 158, 129, 243, 215, 251,
  124, 227, 57, 130, 155, 47, 255, 135, 52, 142, 67, 68, 196, 222, 233, 203,
  84, 123, 148, 50, 166, 194, 35, 61, 238, 76, 149, 11, 66, 250, 195, 78,
  8, 46, 161, 102, 40, 217, 36, 178, 118, 91, 162, 73, 109, 139, 209, 37,
  114, 248, 246, 100, 134, 104, 152, 22, 212, 164, 92, 204, 93, 101, 182, 146,
  108, 112, 72, 80, 253, 237, 185, 218, 94, 21, 70, 87, 167, 141, 157, 132,
  144, 216, 171, 0, 140, 188, 211, 10, 247, 228, 88, 5, 184, 179, 69, 6,
  208, 44, 30, 143, 202, 63, 15, 2, 193, 175, 189, 3, 1, 19, 138, 107,
  58, 145, 17, 65, 79, 103, 220, 234, 151, 242, 207, 206, 240, 180, 230, 115,
  150, 172, 116, 34, 231, 173, 53, 133, 226, 249, 55, 232, 28, 117, 223, 110,
  71, 241, 26, 113, 29, 41, 197, 137, 111, 183, 98, 14, 170, 24, 190, 27,
  252, 86, 62, 75, 198, 210, 121, 32, 154, 219, 192, 254, 120, 205, 90, 244,
  31, 221, 168, 51, 136, 7, 199, 49, 177, 18, 16, 89, 39, 128, 236, 95,
  96, 81, 127, 169, 25, 181, 74, 13, 45, 229, 122, 159, 147, 201, 156, 239,
  160, 224, 59, 77, 174, 42, 245, 176, 200, 235, 187, 60, 131, 83, 153, 97,
  23, 43, 4, 126, 186, 119, 214, 38, 225, 105, 20, 99, 85, 33, 12, 125]

def sboxAt (b : Nat) : Nat := aesSbox.getD b 0

def invSboxAt (b : Nat) : Nat := aesInvSbox.getD b 0

def gmulAux : Nat → Nat → Nat → Nat → Nat
  | 0, _, _, acc => acc
  | n+1, a, b, acc =>
    gmulAux n (if 128 ≤ a then (a * 2) ^^^ 283 else a * 2) (b / 2)
      (if b % 2 = 1 then acc ^^^ a else acc)

def gmul (a b : Nat) : Nat := gmulAux 8 a b 0

def aesRcon : List Nat := [1, 2, 4, 8, 16, 32, 64, 128, 27, 54]

def subWord (w : List Nat) : List Nat := w.map sboxAt

def rotWord : List Nat → List Nat
  | [] => []
  | x :: xs => xs ++ [x]

def keyExpandAux : Nat → List (List Nat) → List (List Nat)
  | 0, w => w
  | n+1, w =>
    let i := w.length
    let prev := w.getD (i-1) []
    let temp :=
      if i % 8 = 0 then
        xorBytes (subWord (rotWord prev)) [aesRcon.getD (i/8-1) 0, 0, 0, 0]
      else if i % 8 = 4 then subWord prev
      else prev
    keyExpandAux n (w ++ [xorBytes (w.getD (i-8) []) temp])

def keyExpansion (key : List Nat) : List (List Nat) :=
  keyExpandAux 52 ((List.range 8).map (fun i => (key.drop (4*i)).take 4))

def roundKey (w : List (List Nat)) (r : Nat) : List Nat :=
  w.getD (4*r) [] ++ (w.getD (4*r+1) [] ++ (w.getD (4*r+2) [] ++ w.getD (4*r+3) []))

def subBytes (s : List Nat) : List Nat := s.map sboxAt

def invSubBytes (s : List Nat) : List Nat := s.map invSboxAt

def shiftRows (s : List Nat) : List Nat :=
  [s.getD 0 0, s.getD 5 0, s.getD 10 0, s.getD 15 0,
   s.getD 4 0, s.getD 9 0, s.getD 14 0, s.getD 3 0,
   s.getD 8 0, s.getD 13 0, s.getD 2 0, s.getD 7 0,
   s.getD 12 0, s.getD 1 0, s.getD 6 0, s.getD 11 0]

def invShiftRows (s : List Nat) : List Nat :=
  [s.getD 0 0, s.getD 13 0, s.getD 10 0, s.getD 7 0,
   s.getD 4 0, s.getD 1 0, s.getD 14 0, s.getD 11 0,
   s.getD 8 0, s.getD 5 0, s.getD 2 0, s.getD 15 0,
   s.getD 12 0, s.getD 9 0, s.getD 6 0, s.getD 3 0]

def mixCol (a0 a1 a2 a3 : Nat) : List Nat :=
  [gmul a0 2 ^^^ gmul a1 3 ^^^ a2 ^^^ a3,
   a0 ^^^ gmul a1 2 ^^^ gmul a2 3 ^^^ a3,
   a0 ^^^ a1 ^^^ gmul a2 2 ^^^ gmul a3 3,
   gmul a0 3 ^^^ a1 ^^^ a2 ^^^ gmul a3 2]

def invMixCol (a0 a1 a2 a3 : Nat) : List Nat :=
  [gmul a0 14 ^^^ gmul a1 11 ^^^ gmul a2 13 ^^^ gmul a3 9,
   gmul a0 9 ^^^ gmul a1 14 ^^^ gmul a2 11 ^^^ gmul a3 13,
   gmul a0 13 ^^^ gmul a1 9 ^^^ gmul a2 14 ^^^ gmul a3 11,
   gmul a0 11 ^^^ gmul a1 13 ^^^ gmul a2 9 ^^^ gmul a3 14]

def mixColumns (s : List Nat) : List Nat :=
  mixCol (s.getD 0 0) (s.getD 1 0) (s.getD 2 0) (s.getD 3 0) ++
  (mixCol (s.getD 4 0) (s.getD 5 0) (s.getD 6 0) (s.getD 7 0) ++
  (mixCol (s.getD 8 0) (s.getD 9 0) (s.getD 10 0) (s.getD 11 0) ++
   mixCol (s.getD 12 0) (s.getD 13 0) (s.getD 14 0) (s.getD 15 0)))

def invMixColumns (s : List Nat) : List Nat :=
  invMixCol (s.getD 0 0) (s.getD 1 0) (s.getD 2 0) (s.getD 3 0) ++
  (invMixCol (s.getD 4 0) (s.getD 5 0) (s.getD 6 0) (s.getD 7 0) ++
  (invMixCol (s.getD 8 0) (s.getD 9 0) (s.getD 10 0) (s.getD 11 0) ++
   invMixCol (s.getD 12 0) (s.getD 13 0) (s.getD 14 0) (s.getD 15 0)))

def aesEncryptBlock (key block : List Nat) : List Nat :=
  let w := keyExpansion key
  let s0 := xorBytes block (roundKey w 0)
  let s := (List.range' 1 13).foldl
    (fun s r => xorBytes (mixColumns (shiftRows (subBytes s))) (roundKey w r)) s0
  xorBytes (shiftRows (subBytes s)) (roundKey w 14)

def aesDecryptBlock (key block : List Nat) : List Nat :=
  let w := keyExpansion key
  let s0 := xorBytes block (roundKey w 14)
  let s := (List.range' 1 13).reverse.foldl
    (fun s r => invMixColumns (xorBytes (invSubBytes (invShiftRows s)) (roundKey w r))) s0
  xorBytes (invSubBytes (invShiftRows s)) (roundKey w 0)

def rotl32 (x n : Nat) : Nat := (x * 2^n) % 2^32 + x / 2^(32-n)

def beUint32 (l : List Nat) : Nat :=
  16777216 * l.getD 0 0 + 65536 * l.getD 1 0 + 256 * l.getD 2 0 + l.getD 3 0

def putUint32BE (n : Nat) : List Nat :=
  [n / 16777216 % 256, n / 65536 % 256, n / 256 % 256, n % 256]

def putUint64BE (n : Nat) : List Nat :=
  [n / 256^7 % 256, n / 256^6 % 256, n / 256^5 % 256, n / 256^4 % 256,
   n / 256^3 % 256, n / 256^2 % 256, n / 256 % 256, n % 256]

def sha1Extend : Nat → List Nat → List Nat
  | 0, ws => ws
  | n+1, ws =>
    let i := ws.length
    sha1Extend n (ws ++ [rotl32 (ws.getD (i-3) 0 ^^^ ws.getD (i-8) 0 ^^^
      ws.getD (i-14) 0 ^^^ ws.getD (i-16) 0) 1])

def sha1Round (ws : List Nat) (st : Nat × Nat × Nat × Nat × Nat) (i : Nat) :
    Nat × Nat × Nat × Nat × Nat :=
  let a := st.1
  let b := st.2.1
  let c := st.2.2.1
  let d := st.2.2.2.1
  let e := st.2.2.2.2
  let f := if i < 20 then (b &&& c) ||| ((b ^^^ 4294967295) &&& d)
    else if i < 40 then b ^^^ c ^^^ d
    else if i < 60 then (b &&& c) ||| (b &&& d) ||| (c &&& d)
    else b ^^^ c ^^^ d
  let k := if i < 20 then 1518500249
    else if i < 40 then 1859775393
    else if i < 60 then 2400959708
    else 3395469782
  let temp := (rotl32 a 5 + f + e + k + ws.getD i 0) % 2^32
  (temp, a, rotl32 b 30, c, d)

def sha1ProcessChunk (h : List Nat) (chunk : List Nat) : List Nat :=
  let ws := sha1Extend 64 ((List.range 16).map (fun i => beUint32 ((chunk.drop (4*i)).take 4)))
  let st := (List.range 80).foldl (sha1Round ws)
    (h.getD 0 0, h.getD 1 0, h.getD 2 0, h.getD 3 0, h.getD 4 0)
  [(h.getD 0 0 + st.1) % 2^32, (h.getD 1 0 + st.2.1) % 2^32,
   (h.getD 2 0 + st.2.2.1) % 2^32, (h.getD 3 0 + st.2.2.2.1) % 2^32,
   (h.getD 4 0 + st.2.2.2.2) % 2^32]

def sha1 (msg : List Nat) : List Nat :=
  let padded := msg ++ ([128] ++ (List.replicate ((119 - msg.length % 64) % 64) 0 ++
    putUint64BE (8 * msg.length)))
  let blocks := (List.range (padded.length / 64)).map
    (fun i => (padded.drop (64*i)).take 64)
  ((blocks.foldl sha1ProcessChunk
    [1732584193, 4023233417, 2562383102, 271733878, 3285377520]).map putUint32BE).flatten

def hmacSha1 (key msg : List Nat) : List Nat :=
  let k0 := if 64 < key.length then sha1 key else key
  let kp := k0 ++ List.replicate (64 - k0.length) 0
  sha1 ((kp.map (fun b => b ^^^ 92)) ++ sha1 ((kp.map (fun b => b ^^^ 54)) ++ msg))

/-- `newChannelCipher(sessionKey, useHMAC)` for a 32-byte session key:
AES-256 block operations under the full key, HMAC-SHA1 keyed by its first
16 bytes. -/
def newChannelCipher (sessionKey : List Nat) (useHMAC : Bool) : ChannelCipher :=
  ⟨aesEncryptBlock sessionKey, aesDecryptBlock sessionKey,
   fun m => hmacSha1 (sessionKey.take 16) m, useHMAC⟩

set_option maxRecDepth 100000

/-- NIST SP 800-38A ECB-AES256 vector: encryption. -/
theorem aes256_nist_encrypt :
    aesEncryptBlock
      [0x60, 0x3d, 0xeb, 0x10, 0x15, 0xca, 0x71, 0xbe, 0x2b, 0x73, 0xae, 0xf0,
       0x85, 0x7d, 0x77, 0x81, 0x1f, 0x35, 0x2c, 0x07, 0x3b, 0x61, 0x08, 0xd7,
       0x2d, 0x98, 0x10, 0xa3, 0x09, 0x14, 0xdf, 0xf4]
      [0x6b, 0xc1, 0xbe, 0xe2, 0x2e, 0x40, 0x9f, 0x96, 0xe9, 0x3d, 0x7e, 0x11,
       0x73, 0x93, 0x17, 0x2a]
    = [0xf3, 0xee, 0xd1, 0xbd, 0xb5, 0xd2, 0xa0, 0x3c, 0x06, 0x4b, 0x5a, 0x7e,
       0x3d, 0xb1, 0x81, 0xf8] := by decide

/-- NIST SP 800-38A ECB-AES256 vector: decryption inverts encryption. -/
theorem aes256_nist_decrypt :
    aesDecryptBlock
      [0x60, 0x3d, 0xeb, 0x10, 0x15, 0xca, 0x71, 0xbe, 0x2b, 0x73, 0xae, 0xf0,
       0x85, 0x7d, 0x77, 0x81, 0x1f, 0x35, 0x2c, 0x07, 0x3b, 0x61, 0x08, 0xd7,
       0x2d, 0x98, 0x10, 0xa3, 0x09, 0x14, 0xdf, 0xf4]
      [0xf3, 0xee, 0xd1, 0xbd, 0xb5, 0xd2, 0xa0, 0x3c, 0x06, 0x4b, 0x5a, 0x7e,
       0x3d, 0xb1, 0x81, 0xf8]
    = [0x6b, 0xc1, 0xbe, 0xe2, 0x2e, 0x40, 0x9f, 0x96, 0xe9, 0x3d, 0x7e, 0x11,
       0x73, 0x93, 0x17, 0x2a] := by decide

/-- SHA-1 of `"abc"`. -/
theorem sha1_abc :
    sha1 [97, 98, 99]
    = [0xa9, 0x99, 0x3e, 0x36, 0x47, 0x06, 0x81, 0x6a, 0xba, 0x3e, 0x25, 0x71,
       0x78, 0x50, 0xc2, 0x6c, 0x9c, 0xd0, 0xd8, 0x9d] := by decide

/-- Session key for the C6 counterexample: bytes 0..31. -/
def c6SessionKey : List Nat := List.range 32

/-- The concrete HMAC-mode channel cipher of the C6 counterexample. -/
def c6Cipher : ChannelCipher := newChannelCipher c6SessionKey true

/-- `encrypt` of the empty plaintext under `c6Cipher` with random bytes
`[0,0,0]`. -/
def c6Ciphertext : List Nat := channelEncrypt c6Cipher [0, 0, 0] []

/-- `c6Ciphertext` with its last byte (index 31) flipped in its lowest bit. -/
def c6Modified : List Nat := c6Ciphertext.set 31 (c6Ciphertext.getD 31 0 ^^^ 1)

/-- Counterexample to C6 as stated: under HMAC mode, this single-byte
modification of a real ciphertext makes `decrypt` fail with the PKCS7
padding FormatError — not IntegrityError — because the padding is
validated before the HMAC comparison. -/
theorem C6_counterexample_pad_not_integrity :
    c6Modified.length = c6Ciphertext.length ∧
    c6Modified.getD 31 0 ≠ c6Ciphertext.getD 31 0 ∧
    channelDecrypt c6Cipher c6Modified = .error .padError ∧
    DecryptError.padError ≠ DecryptError.hmacFail := by decide

/-! ### Lemmas for the amended C6 statement -/

theorem take_set_ge (l : List Nat) (j v n : Nat) (h : n ≤ j) :
    (l.set j v).take n = l.take n := by
  rw [List.set_take, List.set_eq_of_length_le (le_trans (List.length_take_le n l) h)]

theorem drop_set_ge (l : List Nat) (j v n : Nat) (h : n ≤ j) :
    (l.set j v).drop n = (l.drop n).set (j - n) v := by
  induction l generalizing j n with
  | nil => simp
  | cons x xs ih =>
    cases n with
    | zero => simp
    | succ n =>
      cases j with
      | zero => omega
      | succ j =>
        simp only [List.set_cons_succ, List.drop_succ_cons]
        rw [ih j n (by omega)]
        congr 1
        omega

theorem cbcDecryptBlocks_block_length (decB : List Nat → List Nat)
    (hlen : ∀ b : List Nat, b.length = 16 → (decB b).length = 16) :
    ∀ (bs : List (List Nat)) (prev : List Nat), prev.length = 16 →
      (∀ b ∈ bs, b.length = 16) →
      ∀ ob ∈ cbcDecryptBlocks decB prev bs, ob.length = 16 := by
  intro bs
  induction bs with
  | nil => intro prev _ _ ob hob; simp [cbcDecryptBlocks] at hob
  | cons b t ih =>
    intro prev hprev hmem ob hob
    have hb : b.length = 16 := hmem b (by simp)
    simp only [cbcDecryptBlocks, List.mem_cons] at hob
    rcases hob with hob | hob
    · subst hob
      rw [xorBytes_length, hprev, hlen b hb]
      simp
    · exact ih b hb (fun x hx => hmem x (by simp [hx])) ob hob

theorem cbcDecryptBlocks_count (decB : List Nat → List Nat) :
    ∀ (bs : List (List Nat)) (prev : List Nat),
      (cbcDecryptBlocks decB prev bs).length = bs.length := by
  intro bs
  induction bs with
  | nil => intro prev; rfl
  | cons b t ih => intro prev; simp [cbcDecryptBlocks, ih]

theorem cbcDecrypt_length (decB : List Nat → List Nat)
    (hlen : ∀ b : List Nat, b.length = 16 → (decB b).length = 16)
    (iv data : List Nat) (hiv : iv.length = 16) (hdata : data.length % 16 = 0) :
    (cbcDecrypt decB iv data).length = data.length := by
  unfold cbcDecrypt
  have hblocks := toBlocks_block_length data hdata
  have hout := cbcDecryptBlocks_block_length decB hlen (toBlocks data) iv hiv hblocks
  rw [flatten_length_of_blocks _ hout, cbcDecryptBlocks_count]
  have := flatten_length_of_blocks (toBlocks data) hblocks
  rw [toBlocks_flatten data hdata] at this
  omega

theorem flatten_inj_of_blocks : ∀ (xs ys : List (List Nat)),
    (∀ b ∈ xs, b.length = 16) → (∀ b ∈ ys, b.length = 16) →
    xs.flatten = ys.flatten → xs = ys := by
  intro xs
  induction xs with
  | nil =>
    intro ys _ hys h
    cases ys with
    | nil => rfl
    | cons y t =>
      have hy : y.length = 16 := hys y (by simp)
      have := congrArg List.length h
      simp [hy] at this
      omega
  | cons x xs ih =>
    intro ys hxs hys h
    cases ys with
    | nil =>
      have hx : x.length = 16 := hxs x (by simp)
      have := congrArg List.length h
      simp [hx] at this
    | cons y t =>
      have hx : x.length = 16 := hxs x (by simp)
      have hy : y.length = 16 := hys y (by simp)
      simp only [List.flatten_cons] at h
      have hhead : x = y := by
        have h1 := congrArg (fun l => List.take 16 l) h
        simp only at h1
        rwa [take_append_of_length x _ 16 hx, take_append_of_length y _ 16 hy] at h1
      subst hhead
      have htail : xs.flatten = t.flatten := by
        have h2 := congrArg (fun l => List.drop 16 l) h
        simp only at h2
        rwa [drop_append_of_length x _ 16 hx, drop_append_of_length x _ 16 hx] at h2
      rw [ih t (fun b hb => hxs b (by simp [hb])) (fun b hb => hys b (by simp [hb])) htail]

theorem cbcDecryptBlocks_inj (decB : List Nat → List Nat)
    (hinj : ∀ b1 b2 : List Nat, b1.length = 16 → b2.length = 16 →
      decB b1 = decB b2 → b1 = b2)
    (hlen : ∀ b : List Nat, b.length = 16 → (decB b).length = 16) :
    ∀ (bs1 bs2 : List (List Nat)) (prev : List Nat), prev.length = 16 →
      (∀ b ∈ bs1, b.length = 16) → (∀ b ∈ bs2, b.length = 16) →
      cbcDecryptBlocks decB prev bs1 = cbcDecryptBlocks decB prev bs2 →
      bs1 = bs2 := by
  intro bs1
  induction bs1 with
  | nil =>
    intro bs2 prev _ _ _ h
    cases bs2 with
    | nil => rfl
    | cons y t => simp [cbcDecryptBlocks] at h
  | cons x xs ih =>
    intro bs2 prev hprev h1 h2 h
    cases bs2 with
    | nil => simp [cbcDecryptBlocks] at h
    | cons y t =>
      have hx : x.length = 16 := h1 x (by simp)
      have hy : y.length = 16 := h2 y (by simp)
      simp only [cbcDecryptBlocks, List.cons.injEq] at h
      obtain ⟨hhead, htail⟩ := h
      have hdx : (decB x).length = 16 := hlen x hx
      have hdy : (decB y).length = 16 := hlen y hy
      have hdec : decB x = decB y :=
        xorBytes_left_inj prev (decB x) (decB y) (by omega) (by omega) hhead
      have hxy : x = y := hinj x y hx hy hdec
      subst hxy
      rw [ih t x hx (fun b hb => h1 b (by simp [hb])) (fun b hb => h2 b (by simp [hb]))
        htail]

theorem pkcs7Unpad_structure (x pt : List Nat) (h : pkcs7Unpad x 16 = some pt) :
    x = pt ++ List.replicate (x.length - pt.length) (x.length - pt.length) ∧
    1 ≤ x.length - pt.length ∧ x.length - pt.length ≤ 16 ∧ pt.length < x.length := by
  unfold pkcs7Unpad at h
  split at h
  · exact absurd h (by simp)
  · split at h
    · exact absurd h (by simp)
    · split at h
      · rename_i hnz hpad hall
        have hle : ¬ (x.length = 0 ∨ x.length % 16 ≠ 0) := hnz
        push_neg at hle
        have hpadv : ¬ (x.getD (x.length - 1) 0 = 0 ∨ 16 < x.getD (x.length - 1) 0) := hpad
        push_neg at hpadv
        have hpt : pt = x.take (x.length - x.getD (x.length - 1) 0) := (Option.some.inj h).symm
        have hplen : pt.length = x.length - x.getD (x.length - 1) 0 := by
          rw [hpt, List.length_take]
          omega
        have hk : x.length - pt.length = x.getD (x.length - 1) 0 := by
          have h16 : 16 ≤ x.length := by omega
          omega
        refine ⟨?_, by omega, by omega, by omega⟩
        have hdrop : x.drop (x.length - x.getD (x.length - 1) 0)
            = List.replicate (x.length - pt.length) (x.length - pt.length) := by
          apply List.eq_replicate_iff.mpr
          constructor
          · rw [List.length_drop]
            omega
          · intro b hb
            have := List.all_eq_true.mp hall b hb
            rw [hk]
            simpa using this
        calc x = x.take (x.length - x.getD (x.length - 1) 0) ++
              x.drop (x.length - x.getD (x.length - 1) 0) := (List.take_append_drop _ x).symm
          _ = pt ++ List.replicate (x.length - pt.length) (x.length - pt.length) := by
              rw [← hpt, hdrop]
      · exact absurd h (by simp)

theorem pkcs7Unpad_inj (x y pt : List Nat) (hx : pkcs7Unpad x 16 = some pt)
    (hy : pkcs7Unpad y 16 = some pt) (hlen : x.length = y.length) : x = y := by
  obtain ⟨hx1, _, _, _⟩ := pkcs7Unpad_structure x pt hx
  obtain ⟨hy1, _, _, _⟩ := pkcs7Unpad_structure y pt hy
  rw [hx1, hy1, hlen]

theorem getD_append_right_of_le (l1 l2 : List Nat) (n d : Nat) (h : l1.length ≤ n) :
    (l1 ++ l2).getD n d = l2.getD (n - l1.length) d := by
  simp [List.getD_eq_getElem?_getD, List.getElem?_append_right h]

theorem getD_set_self (l : List Nat) (j v : Nat) (h : j < l.length) :
    (l.set j v).getD j 0 = v := by
  simp [List.getD_eq_getElem?_getD, List.getElem?_set_self, h]

/-- Extraction: a successful `decrypt` means the CBC decryption of the tail
under the ECB-recovered IV unpads to the returned plaintext. -/
theorem channelDecrypt_ok_unpad (c : ChannelCipher) (data pt : List Nat)
    (h : channelDecrypt c data = .ok pt) :
    pkcs7Unpad (cbcDecrypt c.decBlock (c.decBlock (data.take 16)) (data.drop 16)) 16
      = some pt := by
  unfold channelDecrypt at h
  simp only [ivLen_eq, ivRandomLen_eq, blockSize_eq] at h
  split at h
  · exact absurd h (by simp)
  · split at h
    · exact absurd h (by simp)
    · split at h
      · exact absurd h (by simp)
      · rename_i plaintext heq
        split at h
        · split at h
          · exact heq.trans (congrArg some (Except.ok.inj h))
          · exact absurd h (by simp)
        · exact heq.trans (congrArg some (Except.ok.inj h))

theorem cbcDecrypt_take16 (decB : List Nat → List Nat)
    (hdlen : ∀ b : List Nat, b.length = 16 → (decB b).length = 16)
    (ivX C : List Nat) (hivX : ivX.length = 16) (hC16 : 16 ≤ C.length) :
    (cbcDecrypt decB ivX C).take 16 = xorBytes ivX (decB (C.take 16)) := by
  have hCne : C ≠ [] := by
    intro h0
    rw [h0] at hC16
    simp at hC16
  unfold cbcDecrypt
  rw [toBlocks_cons_of_ne C hCne]
  simp only [cbcDecryptBlocks, List.flatten_cons]
  have hx : (xorBytes ivX (decB (C.take 16))).length = 16 := by
    rw [xorBytes_length, hivX, hdlen _ (by simp [List.length_take]; omega)]
    simp
  exact take_append_of_length _ _ 16 hx

/-- Core of the amended C6: a single-byte modification of
`encBlock iv ++ cbcEncrypt iv P` never decrypts back to the plaintext that
`P` unpads to. -/
theorem channelDecrypt_set_ne_core (c : ChannelCipher) (hc : GoodCipher c)
    (iv P pt : List Nat) (hiv : iv.length = 16) (hP16 : P.length % 16 = 0)
    (hPge : 16 ≤ P.length) (hPunpad : pkcs7Unpad P 16 = some pt) (j v : Nat)
    (hj : j < (c.encBlock iv ++ cbcEncrypt c.encBlock iv P).length)
    (hv : v ≠ (c.encBlock iv ++ cbcEncrypt c.encBlock iv P).getD j 0) :
    channelDecrypt c ((c.encBlock iv ++ cbcEncrypt c.encBlock iv P).set j v)
      ≠ .ok pt := by
  intro hcontra
  set A := c.encBlock iv with hAdef
  set C := cbcEncrypt c.encBlock iv P with hCdef
  have hA : A.length = 16 := hc.enc_len iv hiv
  have hC : C.length = P.length :=
    cbcEncrypt_length c.encBlock hc.enc_len iv P hiv hP16
  have hC16 : C.length % 16 = 0 := by rw [hC]; exact hP16
  have hCge : 16 ≤ C.length := by omega
  have hdec_inj : ∀ b1 b2 : List Nat, b1.length = 16 → b2.length = 16 →
      c.decBlock b1 = c.decBlock b2 → b1 = b2 := by
    intro b1 b2 h1 h2 he
    have := congrArg c.encBlock he
    rwa [hc.enc_dec b1 h1, hc.enc_dec b2 h2] at this
  have hdecA : c.decBlock A = iv := hc.dec_enc iv hiv
  have horig : cbcDecrypt c.decBlock iv C = P :=
    cbcDecrypt_cbcEncrypt c hc iv P hiv hP16
  have hunpad' := channelDecrypt_ok_unpad c ((A ++ C).set j v) pt hcontra
  rcases lt_or_ge j 16 with hj16 | hj16
  · -- modification inside the encrypted IV
    have htake : ((A ++ C).set j v).take 16 = A.set j v := by
      rw [List.set_take, take_append_of_length A C 16 hA]
    have hdrop : ((A ++ C).set j v).drop 16 = C := by
      rw [List.drop_set_of_lt v _ hj16, drop_append_of_length A C 16 hA]
    rw [htake, hdrop] at hunpad'
    have hsetlen : (A.set j v).length = 16 := by rw [List.length_set]; exact hA
    have hiv2 : (c.decBlock (A.set j v)).length = 16 := hc.dec_len _ hsetlen
    have hlenpad : (cbcDecrypt c.decBlock (c.decBlock (A.set j v)) C).length
        = P.length := by
      rw [cbcDecrypt_length c.decBlock hc.dec_len _ C hiv2 hC16]
      exact hC
    have hpadded : cbcDecrypt c.decBlock (c.decBlock (A.set j v)) C = P :=
      pkcs7Unpad_inj _ P pt hunpad' hPunpad (by rw [hlenpad])
    have hC1 : (C.take 16).length = 16 := by
      rw [List.length_take]
      omega
    have ht2 := cbcDecrypt_take16 c.decBlock hc.dec_len (c.decBlock (A.set j v)) C
      hiv2 hCge
    have ht1 := cbcDecrypt_take16 c.decBlock hc.dec_len iv C hiv hCge
    have hxoreq : xorBytes (c.decBlock (A.set j v)) (c.decBlock (C.take 16))
        = xorBytes iv (c.decBlock (C.take 16)) := by
      rw [← ht2, ← ht1, hpadded, horig]
    have hiveq : c.decBlock (A.set j v) = iv :=
      xorBytes_right_inj _ iv (c.decBlock (C.take 16))
        (by rw [hiv2, hc.dec_len _ hC1]) (by rw [hiv, hc.dec_len _ hC1]) hxoreq
    have hseteq : A.set j v = A :=
      hdec_inj _ _ hsetlen hA (by rw [hiveq, hdecA])
    have hvA : v = A.getD j 0 := by
      have h0 := getD_set_self A j v (by omega)
      have h1 := congrArg (fun l => l.getD j 0) hseteq
      simp only at h1
      rw [h0] at h1
      exact h1
    exact hv (by rw [getD_append_left A C j 0 (by omega), ← hvA])
  · -- modification inside the CBC ciphertext
    have htake : ((A ++ C).set j v).take 16 = A := by
      rw [take_set_ge _ j v 16 hj16, take_append_of_length A C 16 hA]
    have hdrop : ((A ++ C).set j v).drop 16 = C.set (j - 16) v := by
      rw [drop_set_ge _ j v 16 hj16, drop_append_of_length A C 16 hA]
    rw [htake, hdrop, hdecA] at hunpad'
    have hjC : j - 16 < C.length := by
      have hlenE : (A ++ C).length = 16 + C.length := by
        rw [List.length_append, hA]
      omega
    have hC'len : (C.set (j - 16) v).length = C.length := List.length_set C (j-16) v
    have hC'16 : (C.set (j - 16) v).length % 16 = 0 := by rw [hC'len]; exact hC16
    have hlenpad : (cbcDecrypt c.decBlock iv (C.set (j - 16) v)).length
        = P.length := by
      rw [cbcDecrypt_length c.decBlock hc.dec_len iv _ hiv hC'16, hC'len]
      exact hC
    have hpadded : cbcDecrypt c.decBlock iv (C.set (j - 16) v) = P :=
      pkcs7Unpad_inj _ P pt hunpad' hPunpad (by rw [hlenpad])
    have hbl1 : ∀ b ∈ toBlocks (C.set (j - 16) v), b.length = 16 :=
      toBlocks_block_length _ hC'16
    have hbl2 : ∀ b ∈ toBlocks C, b.length = 16 := toBlocks_block_length _ hC16
    have houtbl1 := cbcDecryptBlocks_block_length c.decBlock hc.dec_len
      (toBlocks (C.set (j - 16) v)) iv hiv hbl1
    have houtbl2 := cbcDecryptBlocks_block_length c.decBlock hc.dec_len
      (toBlocks C) iv hiv hbl2
    have hflat : (cbcDecryptBlocks c.decBlock iv (toBlocks (C.set (j - 16) v))).flatten
        = (cbcDecryptBlocks c.decBlock iv (toBlocks C)).flatten :=
      hpadded.trans horig.symm
    have hblocks_eq := flatten_inj_of_blocks _ _ houtbl1 houtbl2 hflat
    have htB := cbcDecryptBlocks_inj c.decBlock hdec_inj hc.dec_len
      (toBlocks (C.set (j - 16) v)) (toBlocks C) iv hiv hbl1 hbl2 hblocks_eq
    have hCeq : C.set (j - 16) v = C := by
      have h1 := toBlocks_flatten (C.set (j - 16) v) hC'16
      have h2 := toBlocks_flatten C hC16
      rw [← h1, htB, h2]
    have hvC : v = C.getD (j - 16) 0 := by
      have h0 := getD_set_self C (j - 16) v hjC
      have h1 := congrArg (fun l => l.getD (j - 16) 0) hCeq
      simp only at h1
      rw [h0] at h1
      exact h1
    exact hv (by rw [getD_append_right_of_le A C j 0 (by omega), hA, ← hvC])

/-- **C6** (amended).  The claim as stated — every single-byte modification
of an HMAC-mode ciphertext makes `decrypt` fail with IntegrityError — is
false: `decrypt` validates the PKCS7 padding before the HMAC comparison, so
a modification that corrupts the padding fails with the padding FormatError
instead (`C6_counterexample_pad_not_integrity`).  Amended: a single-byte
modification of the ciphertext never decrypts back to the original
plaintext — `decrypt` either fails (FormatError from the padding check,
which runs first, or IntegrityError from the HMAC comparison) or returns a
different plaintext. -/
theorem C6_modified_ciphertext_never_original (c : ChannelCipher)
    (hc : GoodCipher c) (rnd p : List Nat)
    (hrnd : rnd.length = if c.useHMAC then ivRandomLen else ivLen)
    (j v : Nat) (hj : j < (channelEncrypt c rnd p).length)
    (hv : v ≠ (channelEncrypt c rnd p).getD j 0) :
    channelDecrypt c ((channelEncrypt c rnd p).set j v) ≠ .ok p := by
  have hiv := buildIV_length c hc rnd p hrnd
  have hE : channelEncrypt c rnd p
      = c.encBlock (buildIV c rnd p) ++
        cbcEncrypt c.encBlock (buildIV c rnd p) (pkcs7Pad p 16) := rfl
  rw [hE] at hj hv ⊢
  exact channelDecrypt_set_ne_core c hc (buildIV c rnd p) (pkcs7Pad p 16) p hiv
    (pkcs7Pad_length_mod p) (by have := pkcs7Pad_length p; omega)
    (pkcs7Unpad_pkcs7Pad p) j v hj hv

/-- Witness for the amended C6 at a concrete cipher, plaintext and
modification. -/
theorem C6_modified_ciphertext_never_original_witness :
    channelDecrypt hmacIdCipher
      ((channelEncrypt hmacIdCipher [0, 0, 0] []).set 0 1) ≠ .ok [] :=
  C6_modified_ciphertext_never_original hmacIdCipher hmacIdCipher_good [0, 0, 0] []
    (by decide) 0 1 (by decide) (by decide)

end SteamStacks
